import Mathlib

/-!
Shallow embedding of the `hashchain` Go package: an append-only log of
fixed-size timestamped records chained by a cryptographic hash.

Modelling conventions:
* A byte store (the `io.ReadWriteSeeker` / `io.ReadSeeker`) is a `List Nat`
  of bytes; appending at the end models a seek-to-end plus write.
* The injected hash function (`hash.Hash` built by the factory) is a
  parameter `Hash : List Nat → List Nat`; the factory contract
  `hasher.Size() = H` becomes the hypothesis `∀ x, (Hash x).length = H`
  where it is needed.  `hasher.Reset; hasher.Write data; hasher.Sum prefix`
  appends `Hash data` to `prefix`.
* Machine integers: `time.Time` is represented by its `UnixNano` value as
  an unbounded `Int`; the Go conversion `uint64(int64 v)` is `v % 2^64`
  and `int64(uint64 v)` subtracts `2^64` from values `≥ 2^63`.
* Fallible code returns `Except Err _` (or a pair carrying the mutated
  receiver, for `Writer.Write` which mutates its receiver in place).
-/

namespace HashChain

/-- Errors of the package (`hashchain.go` / `errors.go`). -/
inductive Err where
  | notFound
  | integrity
  | invalidMessageSize
  | incompleteRead
  deriving DecidableEq, Repr

/-- Error results of `Reader.Iterate`: either a propagated low-level error,
an integrity failure wrapped with the record id
(`fmt.Errorf("record %v: %w", id, ErrIntegrity)`), or a callback error
wrapped with the record id (`fmt.Errorf("record %v function call: %w", ...)`).
`ε` is the caller's error type. -/
inductive IterErr (ε : Type) where
  | err (e : Err)
  | record (id : Int) (e : Err)
  | visit (id : Int) (e : ε)
  deriving DecidableEq, Repr

/-- The `Record` struct.  `Record.Time` is represented by its `UnixNano`
value (`time` field); claims compare timestamps at nanosecond precision. -/
structure Record where
  id : Int
  time : Int
  message : List Nat
  hash : List Nat
  deriving DecidableEq, Repr

/-- `binary.BigEndian.PutUint64`: the 8 big-endian base-256 digits of a
`uint64` value. -/
def putUint64 (v : Nat) : List Nat :=
  [v / 2 ^ 56 % 256, v / 2 ^ 48 % 256, v / 2 ^ 40 % 256, v / 2 ^ 32 % 256,
   v / 2 ^ 24 % 256, v / 2 ^ 16 % 256, v / 2 ^ 8 % 256, v % 256]

/-- `binary.BigEndian.Uint64` on an 8-byte slice. -/
def getUint64 : List Nat → Nat
  | [b0, b1, b2, b3, b4, b5, b6, b7] =>
    ((((((b0 * 256 + b1) * 256 + b2) * 256 + b3) * 256 + b4) * 256 + b5) * 256 + b6) * 256 + b7
  | _ => 0

/-- Go conversion `uint64(v)` of an `int64` value: two's complement,
i.e. reduction modulo `2^64`. -/
def toUint64 (t : Int) : Nat := (t % (2 ^ 64 : Int)).toNat

/-- Go conversion `int64(v)` of a `uint64` value: two's complement. -/
def toInt64 (v : Nat) : Int := if v < 2 ^ 63 then (v : Int) else (v : Int) - 2 ^ 64

/-- The timestamp bytes written by `Writer.Write`:
`binary.BigEndian.PutUint64(buf, uint64(t.UnixNano()))`. -/
def encodeTs (t : Int) : List Nat := putUint64 (toUint64 t)

/-- The `Time` recovered by `decodeRecord`:
`timestamp := int64(binary.BigEndian.Uint64(data[:8]))` and
`time.Unix(timestamp/1e9, timestamp%1e9)`, whose `UnixNano` is
`sec*1e9 + nsec`.  Go `/` and `%` on `int64` truncate toward zero
(`Int.tdiv` / `Int.tmod`). -/
def decodeTime (b : List Nat) : Int :=
  let ts := toInt64 (getUint64 b)
  1000000000 * ts.tdiv 1000000000 + ts.tmod 1000000000

/-- The `readAt` helper: seek to `offset` and read exactly `n` bytes.
A read starting at or past the end is `io.EOF`, mapped to `ErrNotFound`;
a short read mid-store is `errIncompleteRead`.  On success the underlying
cursor ends at `offset + n`. -/
def readAt (store : List Nat) (offset n : Nat) : Except Err (List Nat) :=
  if offset + n ≤ store.length then .ok ((store.drop offset).take n)
  else if offset < store.length then .error .incompleteRead
  else .error .notFound

/-- Go's `if err != nil { return ... }` control flow: continue with the
value on success, short-circuit through `err` on failure. -/
def onOk {α β γ : Type} (res : Except α β) (err : α → γ) (k : β → γ) : γ :=
  match res with
  | .error e => err e
  | .ok x => k x

@[simp] theorem onOk_ok {α β γ : Type} (x : β) (err : α → γ) (k : β → γ) :
    onOk (.ok x) err k = k x := rfl

@[simp] theorem onOk_error {α β γ : Type} (e : α) (err : α → γ) (k : β → γ) :
    onOk (.error e) err k = err e := rfl

/-- The `Writer` struct (`writer.go`).  The injected hasher is passed to
each operation instead of being stored; `buf` is the reusable scratch
buffer of length `hashSize + 8 + messageSize + hashSize` whose first
`hashSize` bytes hold the chain head. -/
structure Writer where
  store : List Nat
  hashSize : Nat
  messageSize : Nat
  lastRecordID : Int
  buf : List Nat
  deriving DecidableEq, Repr

/-- `NewWriter`: seek to the end to learn the length; when the length
exceeds the hash size, read the trailing `hashSize` bytes into the front
of the scratch buffer as the chain head; `lastRecordID` is
`length / recordSize - 1`. -/
def NewWriter (H M : Nat) (store : List Nat) : Except Err Writer :=
  let offset := store.length
  if H < offset then
    onOk (readAt store (offset - H) H) (fun e => .error e) fun lastHash =>
      .ok { store := store, hashSize := H, messageSize := M,
            lastRecordID := (offset : Int) / ((8 : Int) + M + H) - 1,
            buf := lastHash ++ List.replicate (8 + M + H) 0 }
  else
    .ok { store := store, hashSize := H, messageSize := M,
          lastRecordID := (offset : Int) / ((8 : Int) + M + H) - 1,
          buf := List.replicate (H + 8 + M + H) 0 }

/-- `Writer.Write`: reject a message whose length is not `messageSize`;
otherwise place the timestamp and message after the chain head in the
scratch buffer, hash `buf[:hashSize+8+messageSize]`, append the digest to
the buffer, seek to the end and write `buf[hashSize:]`, return a copy of
the digest, move the digest to the front of the buffer, and increment
`lastRecordID`.  The pair carries the mutated receiver; on the size error
the receiver is returned untouched. -/
def Writer.write (Hash : List Nat → List Nat) (w : Writer) (t : Int)
    (message : List Nat) : Writer × Except Err (Int × List Nat) :=
  if message.length ≠ w.messageSize then
    (w, .error .invalidMessageSize)
  else
    let ts := encodeTs t
    let data := w.buf.take w.hashSize ++ ts ++ message
    let digest := Hash data
    ({ w with store := w.store ++ (ts ++ message ++ digest),
              buf := digest ++ (ts ++ message ++ digest),
              lastRecordID := w.lastRecordID + 1 },
     .ok (w.lastRecordID + 1, digest))

/-- Fold `Writer.write` over a list of `(timestamp, message)` pairs,
collecting the returned `(id, hash)` pairs; stops at the first error. -/
def writeAll (Hash : List Nat → List Nat) (w : Writer) :
    List (Int × List Nat) → Writer × Except Err (List (Int × List Nat))
  | [] => (w, .ok [])
  | (t, m) :: rest =>
    let step := w.write Hash t m
    onOk step.2 (fun e => (step.1, .error e)) fun res =>
      let next := writeAll Hash step.1 rest
      onOk next.2 (fun e => (next.1, .error e)) fun more =>
        (next.1, .ok (res :: more))

/-- The `Reader` struct.  `recordSize` is computed from the sizes exactly
as `NewReader` does. -/
structure Reader where
  store : List Nat
  hashSize : Nat
  messageSize : Nat
  deriving DecidableEq, Repr

/-- `NewReader(r, newHasher, messageSize)`. -/
def NewReader (H M : Nat) (store : List Nat) : Reader :=
  { store := store, hashSize := H, messageSize := M }

/-- `timestmpSize + messageSize + hashSize`, as stored by `NewReader`. -/
def Reader.recordSize (r : Reader) : Nat := 8 + r.messageSize + r.hashSize

/-- `Reader.validateIntegrity(h, data)`: recompute the digest of `data`
with a pooled hasher and compare it byte-for-byte with `h`. -/
def Reader.validateIntegrity (Hash : List Nat → List Nat) (_r : Reader)
    (h data : List Nat) : Bool :=
  Hash data == h

/-- Body of `Reader.Read` once the id has been resolved to a non-negative
value: read the record together with the previous record's trailing hash
(a constant zero hash for id 0), validate, and decode. -/
def Reader.readResolved (Hash : List Nat → List Nat) (r : Reader) (id : Nat) :
    Except Err Record :=
  let res :=
    if id = 0 then
      -- read the first record without the hash part, leaving zeros in front
      (readAt r.store 0 r.recordSize).map
        (fun body => List.replicate r.hashSize 0 ++ body)
    else
      readAt r.store (id * r.recordSize - r.hashSize) (r.hashSize + r.recordSize)
  onOk res (fun e => .error e) fun data =>
    let hash := (data.drop r.recordSize).take r.hashSize
    if r.validateIntegrity Hash hash (data.take r.recordSize) then
      .ok { id := (id : Int),
            time := decodeTime ((data.drop r.hashSize).take 8),
            message := (data.drop (r.hashSize + 8)).take (r.recordSize - (r.hashSize + 8)),
            hash := hash }
    else
      .error .integrity

/-- `Reader.Read`: a negative id resolves to the last record
(`length / recordSize - 1`), `ErrNotFound` when no full record exists. -/
def Reader.read (Hash : List Nat → List Nat) (r : Reader) (id : Int) :
    Except Err Record :=
  if id < 0 then
    let offset := r.store.length
    if offset < r.recordSize then .error .notFound
    else r.readResolved Hash (offset / r.recordSize - 1)
  else
    r.readResolved Hash id.toNat

/-- The body of `Reader.Iterate`'s `for` loop.  `hash` is the stored hash
of the record about to be visited; `nro` is `nextRecordOffset`.  The
result pairs the trace of records passed to the callback (modelling the
callback's side effects) with `Iterate`'s return value (`none` = `nil`).
`hH` reflects that any actual hash function has a positive digest size;
with a zero digest size the Go loop would never terminate.
Termination: each iteration either stops or decreases `nro` by
`recordSize > 0`. -/
def Reader.iterLoop {ε : Type} (Hash : List Nat → List Nat) (r : Reader)
    (hH : 0 < r.hashSize) (f : Record → Bool × Option ε)
    (hash : List Nat) (nro : Nat) : List Record × Option (IterErr ε) :=
  let res :=
    if nro = 0 then
      -- first record: read without the previous hash, zero out the front
      (readAt r.store 0 (r.recordSize - r.hashSize)).map
        (fun body => List.replicate r.hashSize 0 ++ body)
    else
      readAt r.store nro r.recordSize
  onOk res (fun e => ([], some (.err e))) fun data =>
    -- readAt leaves the cursor after the bytes just read
    let offset := if nro = 0 then r.recordSize - r.hashSize else nro + r.recordSize
    let id := offset / r.recordSize
    if r.validateIntegrity Hash hash (data.take r.recordSize) then
      let record : Record :=
        { id := (id : Int),
          time := decodeTime ((data.drop r.hashSize).take 8),
          message := data.drop (r.hashSize + 8),
          hash := hash }
      match f record with
      | (_, some e) => ([record], some (.visit (id : Int) e))
      | (cont, none) =>
        if cont = false then ([record], none)
        else if hid : id = 0 then ([record], none)
        else
          -- the loop continues: this can only happen past the first record,
          -- so nro > 0 and the next offset is nro - recordSize < nro
          have hnz : ¬ nro = 0 := fun hz =>
            hid (show (if nro = 0 then r.recordSize - r.hashSize
                       else nro + r.recordSize) / r.recordSize = 0 by
              rw [if_pos hz]
              exact Nat.div_eq_of_lt (by simp only [Reader.recordSize]; omega))
          let rest := r.iterLoop Hash hH f (data.take r.hashSize)
            (offset - 2 * r.recordSize)
          (record :: rest.1, rest.2)
    else
      ([], some (.record (id : Int) .integrity))
termination_by nro
decreasing_by
  simp only [Reader.recordSize] at *
  split <;> omega

/-- `Reader.Iterate`: resolve the starting offset (end of the start
record), read that record's trailing hash, and run the loop.  An empty
store with a negative start id is a successful no-op; a non-negative
start id beyond the store surfaces the read error. -/
def Reader.iterate {ε : Type} (Hash : List Nat → List Nat) (r : Reader)
    (hH : 0 < r.hashSize) (startID : Int) (f : Record → Bool × Option ε) :
    List Record × Option (IterErr ε) :=
  let offset :=
    if startID < 0 then r.store.length
    else (startID.toNat + 1) * r.recordSize
  if startID < 0 ∧ offset < r.recordSize then
    ([], none)
  else if offset < r.recordSize then
    ([], some (.err .notFound))
  else
    onOk (readAt r.store (offset - r.hashSize) r.hashSize)
      (fun e => ([], some (.err e))) fun hash =>
      r.iterLoop Hash hH f hash (offset - r.hashSize - r.recordSize)

/-- A toy injected hash function used for concrete witnesses: digest size
2, first byte the sum of the input modulo 256, second byte the input
length modulo 256.  Flipping any single byte of the input changes the
first digest byte. -/
def testHash (x : List Nat) : List Nat :=
  [x.foldl (fun a b => (a + b) % 256) 0, x.length % 256]

/-! ### Specification-level description of a valid chain

The byte stream produced by a sequence of writes, described directly from
the record layout: record `n` is `timestamp(8) ∥ message(M) ∥ hash(H)` with
`hash(n) = Hash(hash(n-1) ∥ timestamp(n) ∥ message(n))` and `hash(-1)` a
zero hash.  An entry is a `(UnixNano timestamp, message)` pair. -/

/-- The constant zero hash used for the first record. -/
def zeroHash (H : Nat) : List Nat := List.replicate H 0

/-- Bytes of one record given the previous record's hash. -/
def encBlock (Hash : List Nat → List Nat) (ph : List Nat)
    (e : Int × List Nat) : List Nat :=
  encodeTs e.1 ++ e.2 ++ Hash (ph ++ encodeTs e.1 ++ e.2)

/-- The whole store: records chained left to right starting from `ph`. -/
def buildStore (Hash : List Nat → List Nat) (ph : List Nat) :
    List (Int × List Nat) → List Nat
  | [] => []
  | e :: rest =>
    encBlock Hash ph e ++ buildStore Hash (Hash (ph ++ encodeTs e.1 ++ e.2)) rest

/-- The chain head after appending all the entries, starting from `ph`. -/
def chainHash (Hash : List Nat → List Nat) (ph : List Nat) :
    List (Int × List Nat) → List Nat
  | [] => ph
  | e :: rest => chainHash Hash (Hash (ph ++ encodeTs e.1 ++ e.2)) rest

/-- Stored hash of record `i` (counting from 0). -/
def hashAt (Hash : List Nat → List Nat) (H : Nat)
    (entries : List (Int × List Nat)) (i : Nat) : List Nat :=
  chainHash Hash (zeroHash H) (entries.take (i + 1))

/-- Hash input prefix of record `i`: the previous record's hash, or the
zero hash for record 0. -/
def prevHashAt (Hash : List Nat → List Nat) (H : Nat)
    (entries : List (Int × List Nat)) (i : Nat) : List Nat :=
  chainHash Hash (zeroHash H) (entries.take i)

/-- Total access to the `i`-th entry. -/
def entryAt (entries : List (Int × List Nat)) (i : Nat) : Int × List Nat :=
  entries.getD i (0, [])

/-- The `(id, hash)` pairs returned by a sequence of successful writes
starting with chain head `ph` and last record id `base`. -/
def expectedResults (Hash : List Nat → List Nat) (ph : List Nat) (base : Int) :
    List (Int × List Nat) → List (Int × List Nat)
  | [] => []
  | e :: rest =>
    let d := Hash (ph ++ encodeTs e.1 ++ e.2)
    (base + 1, d) :: expectedResults Hash d (base + 1) rest

/-- The record that reading index `i` of a valid chain should produce:
the reader decodes the stored timestamp bytes, so the time field is the
decode of the encode of the written timestamp. -/
def specRecord (Hash : List Nat → List Nat) (H : Nat)
    (entries : List (Int × List Nat)) (i : Nat) : Record :=
  { id := (i : Int),
    time := decodeTime (encodeTs (entryAt entries i).1),
    message := (entryAt entries i).2,
    hash := hashAt Hash H entries i }

/-! ### Basic facts about the byte-level encoding -/

theorem length_encodeTs (t : Int) : (encodeTs t).length = 8 := rfl

theorem length_zeroHash (H : Nat) : (zeroHash H).length = H :=
  List.length_replicate H 0

theorem getUint64_putUint64 (v : Nat) (hv : v < 2 ^ 64) :
    getUint64 (putUint64 v) = v := by
  simp only [putUint64, getUint64]
  omega

theorem decodeTime_eq (b : List Nat) : decodeTime b = toInt64 (getUint64 b) :=
  Int.tdiv_add_tmod _ _

theorem decodeTime_encodeTs (t : Int) (h1 : -(2 ^ 63) ≤ t) (h2 : t < 2 ^ 63) :
    decodeTime (encodeTs t) = t := by
  have hlt : toUint64 t < 2 ^ 64 := by unfold toUint64; omega
  rw [decodeTime_eq, encodeTs, getUint64_putUint64 _ hlt]
  unfold toInt64 toUint64
  split <;> omega

/-! ### Store-segment helpers -/

/-- Evaluate `readAt` from a decomposition of the store: reading the `B`
part succeeds and returns `B`. -/
theorem readAt_decomp {store A B C : List Nat} {off n : Nat}
    (hs : store = A ++ B ++ C) (hA : A.length = off) (hB : B.length = n) :
    readAt store off n = .ok B := by
  subst hs hA hB
  have h1 : A.length + B.length ≤ (A ++ B ++ C).length := by
    simp [List.length_append]
  rw [readAt, if_pos h1, List.append_assoc, List.drop_left, List.take_left]

/-- Chain heads compose along appended entry lists. -/
theorem chainHash_append (Hash : List Nat → List Nat) (ph : List Nat)
    (l₁ l₂ : List (Int × List Nat)) :
    chainHash Hash ph (l₁ ++ l₂) = chainHash Hash (chainHash Hash ph l₁) l₂ := by
  induction l₁ generalizing ph with
  | nil => rfl
  | cons e rest ih =>
    simp only [List.cons_append, chainHash]
    exact ih _

/-- The chaining invariant, stated through `hashAt`/`prevHashAt`:
the stored hash of record `i` is the digest of the previous hash followed
by record `i`'s timestamp and message bytes. -/
theorem hashAt_eq (Hash : List Nat → List Nat) (H : Nat)
    (entries : List (Int × List Nat)) (i : Nat) (hi : i < entries.length) :
    hashAt Hash H entries i =
      Hash (prevHashAt Hash H entries i ++ encodeTs (entryAt entries i).1 ++
        (entryAt entries i).2) := by
  have htake : entries.take (i + 1) = entries.take i ++ [entries[i]] :=
    (List.take_concat_get entries i hi).symm.trans (List.concat_eq_append _ _)
  rw [hashAt, htake, chainHash_append, prevHashAt]
  simp [chainHash, entryAt, List.getElem?_eq_getElem hi, List.append_assoc]

theorem length_encBlock (Hash : List Nat → List Nat) (H M : Nat)
    (HL : ∀ x, (Hash x).length = H) (ph : List Nat) (e : Int × List Nat)
    (hm : e.2.length = M) : (encBlock Hash ph e).length = 8 + M + H := by
  simp [encBlock, HL, hm, length_encodeTs]
  omega

theorem length_buildStore (Hash : List Nat → List Nat) (H M : Nat)
    (HL : ∀ x, (Hash x).length = H) :
    ∀ (entries : List (Int × List Nat)) (ph : List Nat),
      (∀ e ∈ entries, e.2.length = M) →
      (buildStore Hash ph entries).length = entries.length * (8 + M + H) := by
  intro entries
  induction entries with
  | nil => intro ph _; simp [buildStore]
  | cons e rest ih =>
    intro ph hm
    have h1 : e.2.length = M := hm e (List.mem_cons_self e rest)
    have h2 : ∀ x ∈ rest, x.2.length = M := fun x hx => hm x (List.mem_cons_of_mem e hx)
    simp only [buildStore, List.length_append, List.length_cons,
      length_encBlock Hash H M HL ph e h1, ih _ h2]
    ring

/-- Decomposition of a valid chain around record `i ≥ 1`: everything
before the previous record's trailing hash, that hash, record `i`'s
timestamp-and-message bytes, record `i`'s hash, and the rest. -/
theorem buildStore_decomp (Hash : List Nat → List Nat) (H M : Nat)
    (HL : ∀ x, (Hash x).length = H) :
    ∀ (entries : List (Int × List Nat)) (ph : List Nat) (i : Nat),
      (∀ e ∈ entries, e.2.length = M) → 1 ≤ i → i < entries.length →
      ∃ D C : List Nat,
        buildStore Hash ph entries =
          D ++ (chainHash Hash ph (entries.take i) ++
            (encodeTs (entryAt entries i).1 ++ ((entryAt entries i).2 ++
             (chainHash Hash ph (entries.take (i + 1)) ++ C)))) ∧
        D.length + H = i * (8 + M + H) := by
  intro entries
  induction entries with
  | nil => intro ph i _ _ hi; simp at hi
  | cons e rest ih =>
    intro ph i hm h1 hi
    have hme : e.2.length = M := hm e (List.mem_cons_self e rest)
    have hmr : ∀ x ∈ rest, x.2.length = M := fun x hx => hm x (List.mem_cons_of_mem e hx)
    match i, h1 with
    | 1, _ =>
      match rest, hi with
      | e1 :: rest', _ =>
        have hme1 : e1.2.length = M := hmr e1 (List.mem_cons_self e1 rest')
        refine ⟨encodeTs e.1 ++ e.2, buildStore Hash
          (Hash (Hash (ph ++ encodeTs e.1 ++ e.2) ++ encodeTs e1.1 ++ e1.2)) rest', ?_, ?_⟩
        · simp [buildStore, encBlock, chainHash, entryAt, List.append_assoc]
        · simp [length_encodeTs, hme, HL]
    | (k + 2), _ =>
      have hk : k + 1 < rest.length := by
        simp only [List.length_cons] at hi
        omega
      obtain ⟨D', C, hsplit, hlen⟩ :=
        ih (Hash (ph ++ encodeTs e.1 ++ e.2)) (k + 1) hmr (by omega) hk
      refine ⟨encBlock Hash ph e ++ D', C, ?_, ?_⟩
      · show encBlock Hash ph e ++
            buildStore Hash (Hash (ph ++ encodeTs e.1 ++ e.2)) rest = _
        rw [hsplit]
        simp [List.take_succ_cons, chainHash, entryAt, List.append_assoc]
      · simp only [List.length_append, length_encBlock Hash H M HL ph e hme,
          Nat.add_assoc, hlen]
        ring

/-- Evaluating `Reader.readResolved` at `i ≥ 1` from a store decomposition:
whatever bytes actually sit in the store, the reader returns the decoded
record when the recomputed digest matches the stored one and an Integrity
error otherwise. -/
theorem readResolved_pos (Hash : List Nat → List Nat) (r : Reader) (i : Nat)
    (h1 : 1 ≤ i) (D ph X d C : List Nat)
    (hs : r.store = D ++ (ph ++ (X ++ (d ++ C))))
    (hD : D.length + r.hashSize = i * r.recordSize)
    (hph : ph.length = r.hashSize) (hX : X.length = 8 + r.messageSize)
    (hd : d.length = r.hashSize) :
    r.readResolved Hash i =
      if Hash (ph ++ X) = d then
        .ok { id := (i : Int), time := decodeTime (X.take 8),
              message := X.drop 8, hash := d }
      else .error .integrity := by
  have hrs : r.recordSize = 8 + r.messageSize + r.hashSize := rfl
  have hread : readAt r.store (i * r.recordSize - r.hashSize)
      (r.hashSize + r.recordSize) = .ok (ph ++ (X ++ d)) := by
    refine readAt_decomp (A := D) (C := C) ?_ (by omega)
      (by simp only [List.length_append, hph, hX, hd, Reader.recordSize])
    rw [hs]; simp [List.append_assoc]
  have hphX : (ph ++ X).length = r.recordSize := by simp [hph, hX]; omega
  have hhash : ((ph ++ (X ++ d)).drop r.recordSize).take r.hashSize = d := by
    rw [← List.append_assoc, List.drop_left' hphX, List.take_of_length_le (le_of_eq hd)]
  have htake : (ph ++ (X ++ d)).take r.recordSize = ph ++ X := by
    rw [← List.append_assoc, List.take_append_of_le_length hphX.symm.le,
      List.take_of_length_le hphX.le]
  have htime : ((ph ++ (X ++ d)).drop r.hashSize).take 8 = X.take 8 := by
    rw [List.drop_left' hph, List.take_append_of_le_length (by omega)]
  have hmsg : ((ph ++ (X ++ d)).drop (r.hashSize + 8)).take
      (r.recordSize - (r.hashSize + 8)) = X.drop 8 := by
    rw [← List.drop_drop, List.drop_left' hph,
      List.drop_append_of_le_length (by omega),
      List.take_append_of_le_length (by simp [List.length_drop]; omega),
      List.take_of_length_le (by simp [List.length_drop]; omega)]
  rw [Reader.readResolved]
  simp only [if_neg (by omega : ¬ i = 0), hread, onOk_ok, Reader.validateIntegrity,
    hhash, htake, htime, hmsg]
  rcases eq_or_ne (Hash (ph ++ X)) d with heq | hne
  · simp [heq]
  · simp [hne]

/-- Evaluating `Reader.readResolved` at index 0 from a store decomposition:
the previous-hash input is the constant zero hash. -/
theorem readResolved_zero (Hash : List Nat → List Nat) (r : Reader)
    (X d C : List Nat) (hs : r.store = X ++ (d ++ C))
    (hX : X.length = 8 + r.messageSize) (hd : d.length = r.hashSize) :
    r.readResolved Hash 0 =
      if Hash (List.replicate r.hashSize 0 ++ X) = d then
        .ok { id := 0, time := decodeTime (X.take 8),
              message := X.drop 8, hash := d }
      else .error .integrity := by
  have hread : readAt r.store 0 r.recordSize = .ok (X ++ d) := by
    refine readAt_decomp (A := []) (C := C) ?_ rfl
      (by simp only [List.length_append, hX, hd, Reader.recordSize])
    rw [hs]; simp [List.append_assoc]
  have hz : (List.replicate r.hashSize 0).length = r.hashSize := List.length_replicate _ _
  have hphX : (List.replicate r.hashSize 0 ++ (X ++ d)).take r.recordSize
      = List.replicate r.hashSize 0 ++ X := by
    have hl : (List.replicate r.hashSize 0 ++ X).length = r.recordSize := by
      simp [hX, Reader.recordSize]; omega
    rw [← List.append_assoc, List.take_append_of_le_length hl.symm.le,
      List.take_of_length_le hl.le]
  have hhash : ((List.replicate r.hashSize 0 ++ (X ++ d)).drop r.recordSize).take
      r.hashSize = d := by
    have hl : (List.replicate r.hashSize 0 ++ X).length = r.recordSize := by
      simp [hX, Reader.recordSize]; omega
    rw [← List.append_assoc, List.drop_left' hl, List.take_of_length_le (le_of_eq hd)]
  have htime : ((List.replicate r.hashSize 0 ++ (X ++ d)).drop r.hashSize).take 8
      = X.take 8 := by
    rw [List.drop_left' hz, List.take_append_of_le_length (by omega)]
  have hmsg : ((List.replicate r.hashSize 0 ++ (X ++ d)).drop (r.hashSize + 8)).take
      (r.recordSize - (r.hashSize + 8)) = X.drop 8 := by
    rw [← List.drop_drop, List.drop_left' hz,
      List.drop_append_of_le_length (by omega),
      List.take_append_of_le_length (by simp [List.length_drop, Reader.recordSize]; omega),
      List.take_of_length_le (by simp [List.length_drop, Reader.recordSize]; omega)]
  rw [Reader.readResolved, if_pos (rfl : (0 : Nat) = 0), hread,
    show Except.map (fun body => List.replicate r.hashSize 0 ++ body)
      (Except.ok (X ++ d)) = Except.ok (List.replicate r.hashSize 0 ++ (X ++ d))
    from rfl]
  simp only [onOk_ok, Reader.validateIntegrity, hhash, hphX, htime, hmsg]
  rcases eq_or_ne (Hash (List.replicate r.hashSize 0 ++ X)) d with heq | hne
  · simp [heq]
  · simp [hne]

theorem take8_encodeTs (t : Int) (l : List Nat) :
    (encodeTs t ++ l).take 8 = encodeTs t := List.take_left' (length_encodeTs t)

theorem drop8_encodeTs (t : Int) (l : List Nat) :
    (encodeTs t ++ l).drop 8 = l := List.drop_left' (length_encodeTs t)

theorem chainHash_length (Hash : List Nat → List Nat) (H : Nat)
    (HL : ∀ x, (Hash x).length = H) :
    ∀ (l : List (Int × List Nat)) (ph : List Nat), ph.length = H →
      (chainHash Hash ph l).length = H := by
  intro l
  induction l with
  | nil => intro ph hph; exact hph
  | cons x xs ih => intro ph _; exact ih _ (HL _)

/-- Reading record `i` of a valid chain of `entries` succeeds and returns
the written message, the decoded stored timestamp and the chained hash. -/
theorem readResolved_spec (Hash : List Nat → List Nat) (H M : Nat)
    (HL : ∀ x, (Hash x).length = H)
    (entries : List (Int × List Nat)) (hm : ∀ e ∈ entries, e.2.length = M)
    (i : Nat) (hi : i < entries.length) :
    (NewReader H M (buildStore Hash (zeroHash H) entries)).readResolved Hash i =
      .ok (specRecord Hash H entries i) := by
  match entries, hm, hi with
  | e :: rest, hm, hi =>
    have hme : e.2.length = M := hm e (List.mem_cons_self e rest)
    match i, hi with
    | 0, _ =>
      rw [readResolved_zero Hash _ (encodeTs e.1 ++ e.2)
          (Hash (zeroHash H ++ encodeTs e.1 ++ e.2))
          (buildStore Hash (Hash (zeroHash H ++ encodeTs e.1 ++ e.2)) rest)
          (by simp [NewReader, buildStore, encBlock, List.append_assoc])
          (by simp [NewReader, length_encodeTs, hme])
          (by simp [NewReader, HL])]
      rw [if_pos (by rw [← List.append_assoc]; rfl)]
      simp [specRecord, entryAt, hashAt, chainHash, NewReader,
        take8_encodeTs, drop8_encodeTs]
    | (j + 1), hi =>
      obtain ⟨D, C, hsplit, hlen⟩ := buildStore_decomp Hash H M HL (e :: rest)
        (zeroHash H) (j + 1) hm (by omega) hi
      have hml : (entryAt (e :: rest) (j + 1)).2.length = M := by
        rw [entryAt, List.getD_eq_getElem _ _ hi]
        exact hm _ (List.getElem_mem hi)
      rw [readResolved_pos Hash _ (j + 1) (by omega) D
          (chainHash Hash (zeroHash H) ((e :: rest).take (j + 1)))
          (encodeTs (entryAt (e :: rest) (j + 1)).1 ++ (entryAt (e :: rest) (j + 1)).2)
          (chainHash Hash (zeroHash H) ((e :: rest).take (j + 1 + 1))) C
          (by rw [show (NewReader H M (buildStore Hash (zeroHash H) (e :: rest))).store
                  = buildStore Hash (zeroHash H) (e :: rest) from rfl, hsplit]
              simp [List.append_assoc])
          (by simpa [NewReader, Reader.recordSize] using hlen)
          (chainHash_length Hash H HL _ _ (length_zeroHash H))
          (by simp [NewReader, length_encodeTs, hml])
          (chainHash_length Hash H HL _ _ (length_zeroHash H))]
      rw [if_pos (by
        rw [← List.append_assoc]
        exact (hashAt_eq Hash H (e :: rest) (j + 1) hi).symm)]
      simp [specRecord, hashAt, NewReader, take8_encodeTs, drop8_encodeTs]

theorem read_spec (Hash : List Nat → List Nat) (H M : Nat)
    (HL : ∀ x, (Hash x).length = H)
    (entries : List (Int × List Nat)) (hm : ∀ e ∈ entries, e.2.length = M)
    (i : Nat) (hi : i < entries.length) :
    (NewReader H M (buildStore Hash (zeroHash H) entries)).read Hash (i : Int) =
      .ok (specRecord Hash H entries i) := by
  rw [Reader.read, if_neg (by omega : ¬ (i : Int) < 0)]
  simpa using readResolved_spec Hash H M HL entries hm i hi

/-! ### Writer lemmas -/

/-- Explicit form of a successful `Writer.Write`. -/
theorem write_ok (Hash : List Nat → List Nat) (w : Writer) (t : Int)
    (m : List Nat) (hm : m.length = w.messageSize) :
    w.write Hash t m =
      ({ w with
          store := w.store ++
            (encodeTs t ++ m ++ Hash (w.buf.take w.hashSize ++ encodeTs t ++ m)),
          buf := Hash (w.buf.take w.hashSize ++ encodeTs t ++ m) ++
            (encodeTs t ++ m ++ Hash (w.buf.take w.hashSize ++ encodeTs t ++ m)),
          lastRecordID := w.lastRecordID + 1 },
       .ok (w.lastRecordID + 1, Hash (w.buf.take w.hashSize ++ encodeTs t ++ m))) := by
  rw [Writer.write, if_neg (by simp [hm])]

/-- A `Writer.Write` with a wrong-sized message fails leaving the writer
untouched. -/
theorem write_err (Hash : List Nat → List Nat) (w : Writer) (t : Int)
    (m : List Nat) (hm : m.length ≠ w.messageSize) :
    w.write Hash t m = (w, .error .invalidMessageSize) := by
  rw [Writer.write, if_pos hm]

/-- The writer with which every run starts on an empty store. -/
def freshWriter (H M : Nat) : Writer :=
  { store := [], hashSize := H, messageSize := M, lastRecordID := -1,
    buf := List.replicate (H + 8 + M + H) 0 }

theorem NewWriter_empty (H M : Nat) : NewWriter H M [] = .ok (freshWriter H M) := by
  simp [NewWriter, freshWriter, Int.zero_tdiv]

theorem freshWriter_head (H M : Nat) :
    (freshWriter H M).buf.take H = zeroHash H := by
  simp [freshWriter, zeroHash, List.take_replicate]

/-- Full characterisation of a run of successful writes: the results, the
final store, the final last id and the final chain head. -/
theorem writeAll_spec (Hash : List Nat → List Nat) (H M : Nat)
    (HL : ∀ x, (Hash x).length = H) :
    ∀ (entries : List (Int × List Nat)) (w : Writer),
      w.hashSize = H → w.messageSize = M →
      (∀ e ∈ entries, e.2.length = M) →
      (writeAll Hash w entries).2 =
        .ok (expectedResults Hash (w.buf.take H) w.lastRecordID entries) ∧
      (writeAll Hash w entries).1.store =
        w.store ++ buildStore Hash (w.buf.take H) entries ∧
      (writeAll Hash w entries).1.lastRecordID =
        w.lastRecordID + entries.length ∧
      (writeAll Hash w entries).1.buf.take H =
        chainHash Hash (w.buf.take H) entries ∧
      (writeAll Hash w entries).1.hashSize = H ∧
      (writeAll Hash w entries).1.messageSize = M := by
  intro entries
  induction entries with
  | nil =>
    intro w hh hwm _
    simp [writeAll, expectedResults, buildStore, chainHash, hh, hwm]
  | cons e rest ih =>
    intro w hh hwm hm
    obtain ⟨t, m⟩ := e
    subst hh hwm
    have hml : m.length = w.messageSize := hm (t, m) (List.mem_cons_self _ rest)
    have hmr : ∀ x ∈ rest, x.2.length = w.messageSize :=
      fun x hx => hm x (List.mem_cons_of_mem _ hx)
    rw [writeAll]
    simp only [write_ok Hash w t m hml, onOk_ok]
    obtain ⟨ih1, ih2, ih3, ih4, ih5, ih6⟩ := ih { w with
        store := w.store ++
          (encodeTs t ++ m ++ Hash (w.buf.take w.hashSize ++ encodeTs t ++ m)),
        buf := Hash (w.buf.take w.hashSize ++ encodeTs t ++ m) ++
          (encodeTs t ++ m ++ Hash (w.buf.take w.hashSize ++ encodeTs t ++ m)),
        lastRecordID := w.lastRecordID + 1 } rfl rfl hmr
    dsimp only at ih1 ih2 ih3 ih4
    have hbw : (Hash (w.buf.take w.hashSize ++ encodeTs t ++ m) ++
        (encodeTs t ++ m ++ Hash (w.buf.take w.hashSize ++ encodeTs t ++ m))).take
          w.hashSize = Hash (w.buf.take w.hashSize ++ encodeTs t ++ m) :=
      List.take_left' (HL _)
    rw [hbw] at ih1 ih2 ih4
    simp only [ih1, onOk_ok]
    refine ⟨?_, ?_, ?_, ?_, ih5, ih6⟩
    · simp [expectedResults]
    · rw [ih2]
      simp [buildStore, encBlock, List.append_assoc]
    · rw [ih3]
      simp only [List.length_cons]
      push_cast
      ring
    · rw [ih4]
      simp [chainHash]

/-- A non-empty valid chain ends with its last record's hash. -/
theorem buildStore_split_last (Hash : List Nat → List Nat) (H M : Nat)
    (HL : ∀ x, (Hash x).length = H) :
    ∀ (entries : List (Int × List Nat)) (ph : List Nat), entries ≠ [] →
      (∀ e ∈ entries, e.2.length = M) →
      ∃ A : List Nat,
        buildStore Hash ph entries = A ++ chainHash Hash ph entries ∧
        A.length + H = entries.length * (8 + M + H) := by
  intro entries
  induction entries with
  | nil => intro ph h _; exact absurd rfl h
  | cons e rest ih =>
    intro ph _ hm
    have hme : e.2.length = M := hm e (List.mem_cons_self e rest)
    have hmr : ∀ x ∈ rest, x.2.length = M :=
      fun x hx => hm x (List.mem_cons_of_mem e hx)
    match rest with
    | [] =>
      refine ⟨encodeTs e.1 ++ e.2, ?_, ?_⟩
      · simp [buildStore, encBlock, chainHash, List.append_assoc]
      · simp [length_encodeTs, hme]
    | r1 :: rest' =>
      obtain ⟨A', hsplit, hlen⟩ :=
        ih (Hash (ph ++ encodeTs e.1 ++ e.2)) (List.cons_ne_nil r1 rest') hmr
      refine ⟨encBlock Hash ph e ++ A', ?_, ?_⟩
      · show encBlock Hash ph e ++
            buildStore Hash (Hash (ph ++ encodeTs e.1 ++ e.2)) (r1 :: rest') = _
        rw [hsplit]
        simp [chainHash, List.append_assoc]
      · simp only [List.length_append, length_encBlock Hash H M HL ph e hme,
          Nat.add_assoc, hlen, List.length_cons]
        ring

/-- `NewWriter` over a store holding a non-empty valid chain: the last
record id is the record count minus one and the front of the scratch
buffer holds the trailing hash of the store. -/
theorem NewWriter_chain (Hash : List Nat → List Nat) (H M : Nat)
    (HL : ∀ x, (Hash x).length = H) (entries : List (Int × List Nat))
    (hne : entries ≠ []) (hm : ∀ e ∈ entries, e.2.length = M) :
    NewWriter H M (buildStore Hash (zeroHash H) entries) =
      .ok { store := buildStore Hash (zeroHash H) entries,
            hashSize := H, messageSize := M,
            lastRecordID := (entries.length : Int) - 1,
            buf := chainHash Hash (zeroHash H) entries ++
              List.replicate (8 + M + H) 0 } := by
  obtain ⟨A, hsplit, hlen⟩ :=
    buildStore_split_last Hash H M HL entries (zeroHash H) hne hm
  have hlenS : (buildStore Hash (zeroHash H) entries).length =
      entries.length * (8 + M + H) :=
    length_buildStore Hash H M HL entries _ hm
  have hKpos : 1 ≤ entries.length := by
    cases entries with
    | nil => exact absurd rfl hne
    | cons x xs => simp
  have hAlen : A.length + H = (buildStore Hash (zeroHash H) entries).length :=
    hlen.trans hlenS.symm
  have hHlt : H < (buildStore Hash (zeroHash H) entries).length := by
    rw [hlenS]
    calc H < 8 + M + H := by omega
    _ = 1 * (8 + M + H) := by ring
    _ ≤ entries.length * (8 + M + H) := Nat.mul_le_mul_right _ hKpos
  have hread : readAt (buildStore Hash (zeroHash H) entries)
      ((buildStore Hash (zeroHash H) entries).length - H) H =
      .ok (chainHash Hash (zeroHash H) entries) := by
    refine readAt_decomp (A := A) (C := []) ?_ (by omega)
      (chainHash_length Hash H HL _ _ (length_zeroHash H))
    rw [List.append_nil]
    exact hsplit
  have hid : ((buildStore Hash (zeroHash H) entries).length : Int) /
      ((8 : Int) + M + H) - 1 = (entries.length : Int) - 1 := by
    rw [hlenS]
    push_cast
    rw [Int.mul_ediv_cancel _ (by omega : ((8 : Int) + M + H) ≠ 0)]
  rw [NewWriter]
  simp only [if_pos hHlt, hread, onOk_ok, hid]

/-! ### Iterate lemmas -/

/-- One step of the iterate loop at record `j + 1` (general store
decomposition): validate the record against the carried `hash`, visit it,
and continue at record `j` carrying the previous record's stored hash. -/
theorem iterLoop_pos_ev {ε : Type} (Hash : List Nat → List Nat) (r : Reader)
    (hH : 0 < r.hashSize) (f : Record → Bool × Option ε) (hash : List Nat)
    (j : Nat) (D ph X d C : List Nat)
    (hs : r.store = D ++ (ph ++ (X ++ (d ++ C))))
    (hD : D.length + r.hashSize = (j + 1) * r.recordSize)
    (hph : ph.length = r.hashSize) (hX : X.length = 8 + r.messageSize) :
    r.iterLoop Hash hH f hash ((j + 1) * r.recordSize - r.hashSize) =
      (if Hash (ph ++ X) = hash then
        (match f { id := ((j + 1 : Nat) : Int), time := decodeTime (X.take 8),
                   message := X.drop 8, hash := hash } with
         | (_, some e) =>
           ([{ id := ((j + 1 : Nat) : Int), time := decodeTime (X.take 8),
               message := X.drop 8, hash := hash }],
            some (.visit ((j + 1 : Nat) : Int) e))
         | (cont, none) =>
           if cont = false then
             ([{ id := ((j + 1 : Nat) : Int), time := decodeTime (X.take 8),
                 message := X.drop 8, hash := hash }], none)
           else
             ({ id := ((j + 1 : Nat) : Int), time := decodeTime (X.take 8),
                message := X.drop 8, hash := hash } ::
                 (r.iterLoop Hash hH f ph (j * r.recordSize - r.hashSize)).1,
              (r.iterLoop Hash hH f ph (j * r.recordSize - r.hashSize)).2))
      else ([], some (.record ((j + 1 : Nat) : Int) .integrity))) := by
  have hle : r.hashSize + 8 ≤ r.recordSize := by
    simp only [Reader.recordSize]; omega
  have hsucc : (j + 1) * r.recordSize = j * r.recordSize + r.recordSize :=
    Nat.succ_mul j r.recordSize
  have hnro : ¬ (j + 1) * r.recordSize - r.hashSize = 0 := by omega
  have hread : readAt r.store ((j + 1) * r.recordSize - r.hashSize) r.recordSize
      = .ok (ph ++ X) := by
    refine readAt_decomp (A := D) (C := d ++ C) ?_ (by omega)
      (by simp only [List.length_append, hph, hX, Reader.recordSize]; omega)
    rw [hs]; simp [List.append_assoc]
  have hoffeq : (j + 1) * r.recordSize - r.hashSize + r.recordSize =
      (r.recordSize - r.hashSize) + (j + 1) * r.recordSize := by omega
  have hidv : ((j + 1) * r.recordSize - r.hashSize + r.recordSize) / r.recordSize
      = j + 1 := by
    rw [hoffeq, Nat.add_mul_div_right _ _ (by omega : 0 < r.recordSize),
      Nat.div_eq_of_lt (by omega)]
    omega
  have hnro2 : (j + 1) * r.recordSize - r.hashSize + r.recordSize -
      2 * r.recordSize = j * r.recordSize - r.hashSize := by omega
  have hphX : (ph ++ X).length = r.recordSize := by
    simp only [List.length_append, hph, hX, Reader.recordSize]; omega
  have htakeAll : (ph ++ X).take r.recordSize = ph ++ X :=
    List.take_of_length_le hphX.le
  have htime : ((ph ++ X).drop r.hashSize).take 8 = X.take 8 := by
    rw [List.drop_left' hph]
  have hmsg : (ph ++ X).drop (r.hashSize + 8) = X.drop 8 := by
    rw [← List.drop_drop, List.drop_left' hph]
  have hphT : (ph ++ X).take r.hashSize = ph := List.take_left' hph
  rw [Reader.iterLoop, if_neg hnro, hread]
  simp only [onOk_ok, if_neg hnro, Reader.validateIntegrity, htakeAll, htime,
    hmsg, hidv, hnro2, hphT]
  rcases eq_or_ne (Hash (ph ++ X)) hash with heq | hne
  · rw [if_pos (by simp [heq]), if_pos heq]
    rcases hf : f ⟨((j + 1 : Nat) : Int), decodeTime (X.take 8), X.drop 8, hash⟩
      with ⟨cont, oe⟩
    rcases oe with _ | e
    · cases cont
      · simp
      · simp [(by omega : ¬ j + 1 = 0)]
    · rfl
  · rw [if_neg (by simp [hne]), if_neg hne]

/-- The iterate loop at `nextRecordOffset = 0`: the first record is read
with a zero previous hash, and the loop always stops after visiting it. -/
theorem iterLoop_zero_ev {ε : Type} (Hash : List Nat → List Nat) (r : Reader)
    (hH : 0 < r.hashSize) (f : Record → Bool × Option ε) (hash : List Nat)
    (X d C : List Nat) (hs : r.store = X ++ (d ++ C))
    (hX : X.length = 8 + r.messageSize) :
    r.iterLoop Hash hH f hash 0 =
      (if Hash (List.replicate r.hashSize 0 ++ X) = hash then
        (match f { id := 0, time := decodeTime (X.take 8),
                   message := X.drop 8, hash := hash } with
         | (_, some e) =>
           ([{ id := 0, time := decodeTime (X.take 8),
               message := X.drop 8, hash := hash }], some (.visit 0 e))
         | (_, none) =>
           ([{ id := 0, time := decodeTime (X.take 8),
               message := X.drop 8, hash := hash }], none))
      else ([], some (.record 0 .integrity))) := by
  have hread : readAt r.store 0 (r.recordSize - r.hashSize) = .ok X := by
    refine readAt_decomp (A := []) (C := d ++ C) ?_ rfl
      (by simp only [hX, Reader.recordSize]; omega)
    rw [hs]; simp [List.append_assoc]
  have hzl : (List.replicate r.hashSize 0).length = r.hashSize :=
    List.length_replicate _ _
  have hlen : (List.replicate r.hashSize 0 ++ X).length = r.recordSize := by
    simp only [List.length_append, hzl, hX, Reader.recordSize]; omega
  have htakeAll : (List.replicate r.hashSize 0 ++ X).take r.recordSize =
      List.replicate r.hashSize 0 ++ X := List.take_of_length_le hlen.le
  have htime : ((List.replicate r.hashSize 0 ++ X).drop r.hashSize).take 8 =
      X.take 8 := by
    rw [List.drop_left' hzl]
  have hmsg : (List.replicate r.hashSize 0 ++ X).drop (r.hashSize + 8) =
      X.drop 8 := by
    rw [← List.drop_drop, List.drop_left' hzl]
  have hidz : (r.recordSize - r.hashSize) / r.recordSize = 0 :=
    Nat.div_eq_of_lt (by simp only [Reader.recordSize]; omega)
  rw [Reader.iterLoop, if_pos rfl, hread,
    show Except.map (fun body => List.replicate r.hashSize 0 ++ body)
      (Except.ok X) = Except.ok (List.replicate r.hashSize 0 ++ X) from rfl]
  simp only [onOk_ok, eq_self_iff_true, if_true, Reader.validateIntegrity,
    htakeAll, htime, hmsg, hidz, Nat.cast_zero]
  rcases eq_or_ne (Hash (List.replicate r.hashSize 0 ++ X)) hash with heq | hne
  · rw [if_pos (by simp [heq]), if_pos heq]
    rcases hf : f ⟨0, decodeTime (X.take 8), X.drop 8, hash⟩ with ⟨cont, oe⟩
    rcases oe with _ | e
    · cases cont
      · simp
      · simp
    · rfl
  · rw [if_neg (by simp [hne]), if_neg hne]

/-- The records of a valid chain in the order reverse iteration visits
them starting from record `j`: ids `j, j-1, …, 0`. -/
def descRecords (Hash : List Nat → List Nat) (H : Nat)
    (entries : List (Int × List Nat)) : Nat → List Record
  | 0 => [specRecord Hash H entries 0]
  | (j + 1) => specRecord Hash H entries (j + 1) :: descRecords Hash H entries j

theorem descRecords_eq_map (Hash : List Nat → List Nat) (H : Nat)
    (entries : List (Int × List Nat)) (j : Nat) :
    descRecords Hash H entries j =
      ((List.range (j + 1)).reverse).map (specRecord Hash H entries) := by
  induction j with
  | zero => rfl
  | succ k ih =>
    rw [descRecords, ih,
      show List.range (k + 1 + 1) = List.range (k + 1) ++ [k + 1] from
        List.range_succ (k + 1), List.reverse_append]
    rfl

/-- One step of the iterate loop over a valid chain, for an arbitrary
callback: record `j` is decoded and visited, and on continuation the loop
proceeds to record `j - 1` carrying its stored hash. -/
theorem iterLoop_step_any {ε : Type} (Hash : List Nat → List Nat) (H M : Nat)
    (HL : ∀ x, (Hash x).length = H) (hH : 0 < H)
    (entries : List (Int × List Nat)) (hm : ∀ e ∈ entries, e.2.length = M)
    (f : Record → Bool × Option ε) (j : Nat) (hj : j < entries.length) :
    (NewReader H M (buildStore Hash (zeroHash H) entries)).iterLoop Hash hH f
        (hashAt Hash H entries j) (j * (8 + M + H) - H) =
      (match f (specRecord Hash H entries j) with
       | (_, some e) => ([specRecord Hash H entries j], some (.visit (j : Int) e))
       | (cont, none) =>
         if cont = false then ([specRecord Hash H entries j], none)
         else if j = 0 then ([specRecord Hash H entries j], none)
         else
           (specRecord Hash H entries j ::
             ((NewReader H M (buildStore Hash (zeroHash H) entries)).iterLoop Hash hH f
               (hashAt Hash H entries (j - 1)) ((j - 1) * (8 + M + H) - H)).1,
            ((NewReader H M (buildStore Hash (zeroHash H) entries)).iterLoop Hash hH f
              (hashAt Hash H entries (j - 1)) ((j - 1) * (8 + M + H) - H)).2)) := by
  match entries, hm, hj with
  | e :: rest, hm, hj =>
    have hme : e.2.length = M := hm e (List.mem_cons_self e rest)
    match j, hj with
    | 0, _ =>
      rw [show (0 * (8 + M + H) - H : Nat) = 0 from by omega]
      rw [iterLoop_zero_ev Hash _ hH f _ (encodeTs e.1 ++ e.2)
          (Hash (zeroHash H ++ encodeTs e.1 ++ e.2))
          (buildStore Hash (Hash (zeroHash H ++ encodeTs e.1 ++ e.2)) rest)
          (by simp [NewReader, buildStore, encBlock, List.append_assoc])
          (by simp [NewReader, length_encodeTs, hme])]
      rw [if_pos (by
        rw [← List.append_assoc]
        show Hash (zeroHash H ++ encodeTs e.1 ++ e.2) = hashAt Hash H (e :: rest) 0
        simp [hashAt, chainHash])]
      have hrec : specRecord Hash H (e :: rest) 0 =
          { id := 0, time := decodeTime ((encodeTs e.1 ++ e.2).take 8),
            message := (encodeTs e.1 ++ e.2).drop 8,
            hash := hashAt Hash H (e :: rest) 0 } := by
        simp [specRecord, entryAt, take8_encodeTs, drop8_encodeTs]
      rw [← hrec]
      rcases hf : f (specRecord Hash H (e :: rest) 0) with ⟨cont, oe⟩
      rcases oe with _ | er
      · cases cont <;> simp
      · rfl
    | (k + 1), hj =>
      obtain ⟨D, C, hsplit, hlen⟩ := buildStore_decomp Hash H M HL (e :: rest)
        (zeroHash H) (k + 1) hm (by omega) hj
      have hml : (entryAt (e :: rest) (k + 1)).2.length = M := by
        rw [entryAt, List.getD_eq_getElem _ _ hj]
        exact hm _ (List.getElem_mem hj)
      rw [show ((k + 1) * (8 + M + H) - H : Nat) =
          ((k + 1) * (NewReader H M (buildStore Hash (zeroHash H) (e :: rest))).recordSize -
            (NewReader H M (buildStore Hash (zeroHash H) (e :: rest))).hashSize) from rfl]
      rw [iterLoop_pos_ev Hash _ hH f _ k D
          (chainHash Hash (zeroHash H) ((e :: rest).take (k + 1)))
          (encodeTs (entryAt (e :: rest) (k + 1)).1 ++ (entryAt (e :: rest) (k + 1)).2)
          (chainHash Hash (zeroHash H) ((e :: rest).take (k + 1 + 1))) C
          (by rw [show (NewReader H M (buildStore Hash (zeroHash H) (e :: rest))).store
                  = buildStore Hash (zeroHash H) (e :: rest) from rfl, hsplit]
              simp [List.append_assoc])
          (by simpa [NewReader, Reader.recordSize] using hlen)
          (chainHash_length Hash H HL _ _ (length_zeroHash H))
          (by simp [NewReader, length_encodeTs, hml])]
      rw [if_pos (by
        rw [← List.append_assoc]
        exact (hashAt_eq Hash H (e :: rest) (k + 1) hj).symm)]
      have hrec : specRecord Hash H (e :: rest) (k + 1) =
          { id := ((k + 1 : Nat) : Int),
            time := decodeTime ((encodeTs (entryAt (e :: rest) (k + 1)).1 ++
              (entryAt (e :: rest) (k + 1)).2).take 8),
            message := (encodeTs (entryAt (e :: rest) (k + 1)).1 ++
              (entryAt (e :: rest) (k + 1)).2).drop 8,
            hash := hashAt Hash H (e :: rest) (k + 1) } := by
        simp [specRecord, take8_encodeTs, drop8_encodeTs]
      rw [← hrec]
      rcases hf : f (specRecord Hash H (e :: rest) (k + 1)) with ⟨cont, oe⟩
      rcases oe with _ | er
      · cases cont
        · simp
        · simp only [Bool.true_eq_false, if_neg (by simp : ¬ True = False)]
          rw [if_neg (by omega : ¬ k + 1 = 0)]
          rfl
      · rfl

/-- With an always-continue callback, the iterate loop started at record
`j` of a valid chain visits records `j, j-1, …, 0` and returns success. -/
theorem iterLoop_true {ε : Type} (Hash : List Nat → List Nat) (H M : Nat)
    (HL : ∀ x, (Hash x).length = H) (hH : 0 < H)
    (entries : List (Int × List Nat)) (hm : ∀ e ∈ entries, e.2.length = M)
    (f : Record → Bool × Option ε) (hf : ∀ rec, f rec = (true, none)) :
    ∀ j, j < entries.length →
      (NewReader H M (buildStore Hash (zeroHash H) entries)).iterLoop Hash hH f
        (hashAt Hash H entries j) (j * (8 + M + H) - H) =
      (descRecords Hash H entries j, none) := by
  intro j
  induction j with
  | zero =>
    intro hj
    rw [iterLoop_step_any Hash H M HL hH entries hm f 0 hj, hf]
    rfl
  | succ k ih =>
    intro hj
    rw [iterLoop_step_any Hash H M HL hH entries hm f (k + 1) hj, hf]
    have hk : k < entries.length := by omega
    simp only [if_neg (by simp : ¬ (true = false)),
      if_neg (by omega : ¬ k + 1 = 0)]
    rw [show (k + 1 - 1 : Nat) = k from rfl, ih hk]
    rfl

/-- `Reader.Iterate` with a non-negative in-range start id enters the loop
at that record, carrying its stored hash. -/
theorem iterate_start {ε : Type} (Hash : List Nat → List Nat) (H M : Nat)
    (HL : ∀ x, (Hash x).length = H) (hH : 0 < H)
    (entries : List (Int × List Nat)) (hm : ∀ e ∈ entries, e.2.length = M)
    (f : Record → Bool × Option ε) (j : Nat) (hj : j < entries.length) :
    (NewReader H M (buildStore Hash (zeroHash H) entries)).iterate Hash hH
        (j : Int) f =
      (NewReader H M (buildStore Hash (zeroHash H) entries)).iterLoop Hash hH f
        (hashAt Hash H entries j) (j * (8 + M + H) - H) := by
  have hrs : (NewReader H M (buildStore Hash (zeroHash H) entries)).recordSize
      = 8 + M + H := rfl
  have hread : readAt (buildStore Hash (zeroHash H) entries)
      ((j + 1) * (8 + M + H) - H) H = .ok (hashAt Hash H entries j) := by
    match entries, hm, hj with
    | e :: rest, hm, hj =>
      have hme : e.2.length = M := hm e (List.mem_cons_self e rest)
      match j, hj with
      | 0, _ =>
        refine readAt_decomp (A := encodeTs e.1 ++ e.2)
          (C := buildStore Hash (Hash (zeroHash H ++ encodeTs e.1 ++ e.2)) rest)
          ?_ (by simp only [List.length_append, length_encodeTs, hme]; omega) ?_
        · simp [buildStore, encBlock, hashAt, chainHash, List.append_assoc]
        · simp [hashAt, chainHash, HL]
      | (k + 1), hj =>
        obtain ⟨D, C, hsplit, hlen⟩ := buildStore_decomp Hash H M HL (e :: rest)
          (zeroHash H) (k + 1) hm (by omega) hj
        have hml : (entryAt (e :: rest) (k + 1)).2.length = M := by
          rw [entryAt, List.getD_eq_getElem _ _ hj]
          exact hm _ (List.getElem_mem hj)
        refine readAt_decomp
          (A := D ++ chainHash Hash (zeroHash H) ((e :: rest).take (k + 1)) ++
            encodeTs (entryAt (e :: rest) (k + 1)).1 ++ (entryAt (e :: rest) (k + 1)).2)
          (C := C) ?_ ?_ (chainHash_length Hash H HL _ _ (length_zeroHash H))
        · rw [hsplit]
          show _ = _ ++ hashAt Hash H (e :: rest) (k + 1) ++ C
          rw [hashAt]
          simp [List.append_assoc]
        · have h1 : (chainHash Hash (zeroHash H) ((e :: rest).take (k + 1))).length = H :=
            chainHash_length Hash H HL _ _ (length_zeroHash H)
          have h2 : (k + 1 + 1) * (8 + M + H) = (k + 1) * (8 + M + H) + (8 + M + H) :=
            Nat.succ_mul _ _
          simp only [List.length_append, h1, length_encodeTs, hml]
          omega
  have hneg : ¬ ((j : Int) < 0) := by omega
  have hge : ¬ ((j + 1) * (8 + M + H) < 8 + M + H) := by
    have h1 : 1 * (8 + M + H) ≤ (j + 1) * (8 + M + H) :=
      Nat.mul_le_mul_right _ (by omega)
    omega
  simp only [Reader.iterate, hneg, false_and, if_neg not_false,
    Int.toNat_natCast, hrs,
    show (NewReader H M (buildStore Hash (zeroHash H) entries)).hashSize = H
      from rfl,
    show (NewReader H M (buildStore Hash (zeroHash H) entries)).store
      = buildStore Hash (zeroHash H) entries from rfl,
    if_neg hge, hread, onOk_ok]
  have hnro : (j + 1) * (8 + M + H) - H - (8 + M + H) = j * (8 + M + H) - H := by
    have h2 : (j + 1) * (8 + M + H) = j * (8 + M + H) + (8 + M + H) :=
      Nat.succ_mul _ _
    omega
  rw [hnro]

/-- `Reader.Iterate` with a negative start id over a non-empty valid chain
enters the loop at the last record. -/
theorem iterate_neg {ε : Type} (Hash : List Nat → List Nat) (H M : Nat)
    (HL : ∀ x, (Hash x).length = H) (hH : 0 < H)
    (entries : List (Int × List Nat)) (hm : ∀ e ∈ entries, e.2.length = M)
    (hne : entries ≠ []) (f : Record → Bool × Option ε)
    (startID : Int) (hs : startID < 0) :
    (NewReader H M (buildStore Hash (zeroHash H) entries)).iterate Hash hH
        startID f =
      (NewReader H M (buildStore Hash (zeroHash H) entries)).iterLoop Hash hH f
        (hashAt Hash H entries (entries.length - 1))
        ((entries.length - 1) * (8 + M + H) - H) := by
  have hrs : (NewReader H M (buildStore Hash (zeroHash H) entries)).recordSize
      = 8 + M + H := rfl
  have hKpos : 1 ≤ entries.length := by
    cases entries with
    | nil => exact absurd rfl hne
    | cons x xs => simp
  have hlenS : (buildStore Hash (zeroHash H) entries).length =
      entries.length * (8 + M + H) :=
    length_buildStore Hash H M HL entries _ hm
  have hKrs : entries.length * (8 + M + H) =
      (entries.length - 1) * (8 + M + H) + (8 + M + H) := by
    have h2 : entries.length = (entries.length - 1) + 1 := by omega
    calc entries.length * (8 + M + H)
        = ((entries.length - 1) + 1) * (8 + M + H) := by rw [← h2]
      _ = (entries.length - 1) * (8 + M + H) + (8 + M + H) := Nat.succ_mul _ _
  obtain ⟨A, hsplit, hlen⟩ :=
    buildStore_split_last Hash H M HL entries (zeroHash H) hne hm
  have hlast : chainHash Hash (zeroHash H) entries =
      hashAt Hash H entries (entries.length - 1) := by
    rw [hashAt, show entries.length - 1 + 1 = entries.length from by omega,
      List.take_length]
  have hread : readAt (buildStore Hash (zeroHash H) entries)
      ((buildStore Hash (zeroHash H) entries).length - H) H =
      .ok (hashAt Hash H entries (entries.length - 1)) := by
    rw [← hlast]
    refine readAt_decomp (A := A) (C := []) ?_ (by omega)
      (chainHash_length Hash H HL _ _ (length_zeroHash H))
    rw [List.append_nil]
    exact hsplit
  have hnl : ¬ ((buildStore Hash (zeroHash H) entries).length < 8 + M + H) := by
    rw [hlenS]
    omega
  simp only [Reader.iterate, hs, true_and, if_true, hrs,
    show (NewReader H M (buildStore Hash (zeroHash H) entries)).hashSize = H
      from rfl,
    show (NewReader H M (buildStore Hash (zeroHash H) entries)).store
      = buildStore Hash (zeroHash H) entries from rfl,
    if_neg hnl, hread, onOk_ok]
  have hnro : (buildStore Hash (zeroHash H) entries).length - H - (8 + M + H)
      = (entries.length - 1) * (8 + M + H) - H := by
    rw [hlenS]
    omega
  rw [hnro]

/-! ### Empty-store behaviour -/

theorem readAt_nil (offset n : Nat) (hn : 0 < n) :
    readAt [] offset n = .error .notFound := by
  rw [readAt, if_neg (by simp only [List.length_nil]; omega),
    if_neg (by simp only [List.length_nil]; omega)]

theorem read_empty (Hash : List Nat → List Nat) (H M : Nat) (hH : 0 < H)
    (id : Int) : (NewReader H M []).read Hash id = .error .notFound := by
  rw [Reader.read]
  by_cases hid : id < 0
  · rw [if_pos hid,
      if_pos (by simp only [NewReader, Reader.recordSize, List.length_nil]; omega)]
  · rw [if_neg hid, Reader.readResolved]
    by_cases h0 : id.toNat = 0
    · rw [if_pos h0,
        show (NewReader H M []).store = [] from rfl,
        readAt_nil _ _ (by simp only [Reader.recordSize, NewReader]; omega)]
      rfl
    · rw [if_neg h0,
        show (NewReader H M []).store = [] from rfl,
        readAt_nil _ _ (by simp only [Reader.recordSize, NewReader]; omega)]
      rfl

theorem iterate_empty_neg {ε : Type} (Hash : List Nat → List Nat) (H M : Nat)
    (hH : 0 < H) (f : Record → Bool × Option ε) (startID : Int)
    (hs : startID < 0) :
    (NewReader H M []).iterate Hash hH startID f = ([], none) := by
  rw [Reader.iterate]
  rw [if_pos (by
    refine ⟨hs, ?_⟩
    rw [if_pos hs]
    simp only [NewReader, Reader.recordSize, List.length_nil]
    omega)]

theorem iterate_empty_nonneg {ε : Type} (Hash : List Nat → List Nat)
    (H M : Nat) (hH : 0 < H) (f : Record → Bool × Option ε) (startID : Int)
    (hs : 0 ≤ startID) :
    (NewReader H M []).iterate Hash hH startID f =
      ([], some (.err .notFound)) := by
  have hns : ¬ startID < 0 := by omega
  have hge : ¬ ((startID.toNat + 1) * (8 + M + H) < 8 + M + H) := by
    have h1 : 1 * (8 + M + H) ≤ (startID.toNat + 1) * (8 + M + H) :=
      Nat.mul_le_mul_right _ (by omega)
    omega
  simp only [Reader.iterate, hns, false_and, if_neg not_false,
    show (NewReader H M []).recordSize = 8 + M + H from rfl,
    show (NewReader H M []).hashSize = H from rfl,
    show (NewReader H M []).store = [] from rfl,
    if_neg hge, readAt_nil _ _ hH, onOk_error]

/-! ### Corruption of a stored record -/

/-- Corrupting byte `q` of record `i`'s timestamp-or-message region makes
`readResolved i` fail the integrity check, provided the digest of the
altered input differs from the stored hash. -/
theorem readResolved_corrupt (Hash : List Nat → List Nat) (H M : Nat)
    (HL : ∀ x, (Hash x).length = H)
    (entries : List (Int × List Nat)) (hm : ∀ e ∈ entries, e.2.length = M)
    (i : Nat) (hi : i < entries.length) (q : Nat) (hq : q < 8 + M) (v : Nat)
    (hdiff : Hash (prevHashAt Hash H entries i ++
        (encodeTs (entryAt entries i).1 ++ (entryAt entries i).2).set q v) ≠
      hashAt Hash H entries i) :
    (NewReader H M ((buildStore Hash (zeroHash H) entries).set
        (i * (8 + M + H) + q) v)).readResolved Hash i = .error .integrity := by
  match entries, hm, hi with
  | e :: rest, hm, hi =>
    have hme : e.2.length = M := hm e (List.mem_cons_self e rest)
    match i, hi, hdiff with
    | 0, _, hdiff =>
      have hXl : (encodeTs e.1 ++ e.2).length = 8 + M := by
        simp [length_encodeTs, hme]
      have hset : (buildStore Hash (zeroHash H) (e :: rest)).set
          (0 * (8 + M + H) + q) v =
          (encodeTs e.1 ++ e.2).set q v ++
            (Hash (zeroHash H ++ encodeTs e.1 ++ e.2) ++
             buildStore Hash (Hash (zeroHash H ++ encodeTs e.1 ++ e.2)) rest) := by
        rw [show (0 * (8 + M + H) + q : Nat) = q from by omega,
          show buildStore Hash (zeroHash H) (e :: rest) =
            (encodeTs e.1 ++ e.2) ++
              (Hash (zeroHash H ++ encodeTs e.1 ++ e.2) ++
               buildStore Hash (Hash (zeroHash H ++ encodeTs e.1 ++ e.2)) rest)
            from by simp [buildStore, encBlock, List.append_assoc],
          List.set_append_left _ _ (by omega)]
      rw [readResolved_zero Hash _ ((encodeTs e.1 ++ e.2).set q v)
          (Hash (zeroHash H ++ encodeTs e.1 ++ e.2))
          (buildStore Hash (Hash (zeroHash H ++ encodeTs e.1 ++ e.2)) rest)
          (by rw [show (NewReader H M ((buildStore Hash (zeroHash H) (e :: rest)).set
                (0 * (8 + M + H) + q) v)).store =
              (buildStore Hash (zeroHash H) (e :: rest)).set
                (0 * (8 + M + H) + q) v from rfl, hset])
          (by simp [NewReader, List.length_set, hXl])
          (by simp [NewReader, HL])]
      rw [if_neg (by
        intro hc
        apply hdiff
        show Hash (prevHashAt Hash H (e :: rest) 0 ++
          (encodeTs e.1 ++ e.2).set q v) = hashAt Hash H (e :: rest) 0
        exact hc.trans (show Hash (zeroHash H ++ encodeTs e.1 ++ e.2) =
          hashAt Hash H (e :: rest) 0 by simp [hashAt, chainHash]))]
    | (k + 1), hi, hdiff =>
      obtain ⟨D, C, hsplit, hlen⟩ := buildStore_decomp Hash H M HL (e :: rest)
        (zeroHash H) (k + 1) hm (by omega) hi
      have hml : (entryAt (e :: rest) (k + 1)).2.length = M := by
        rw [entryAt, List.getD_eq_getElem _ _ hi]
        exact hm _ (List.getElem_mem hi)
      have hXl : (encodeTs (entryAt (e :: rest) (k + 1)).1 ++
          (entryAt (e :: rest) (k + 1)).2).length = 8 + M := by
        simp [length_encodeTs, hml]
      have hphl : (chainHash Hash (zeroHash H) ((e :: rest).take (k + 1))).length = H :=
        chainHash_length Hash H HL _ _ (length_zeroHash H)
      have hDp : (D ++ chainHash Hash (zeroHash H) ((e :: rest).take (k + 1))).length
          = (k + 1) * (8 + M + H) := by
        simp only [List.length_append, hphl]
        omega
      have hset : (buildStore Hash (zeroHash H) (e :: rest)).set
          ((k + 1) * (8 + M + H) + q) v =
          D ++ (chainHash Hash (zeroHash H) ((e :: rest).take (k + 1)) ++
            ((encodeTs (entryAt (e :: rest) (k + 1)).1 ++
              (entryAt (e :: rest) (k + 1)).2).set q v ++
             (chainHash Hash (zeroHash H) ((e :: rest).take (k + 1 + 1)) ++ C))) := by
        rw [show buildStore Hash (zeroHash H) (e :: rest) =
            (D ++ chainHash Hash (zeroHash H) ((e :: rest).take (k + 1))) ++
              ((encodeTs (entryAt (e :: rest) (k + 1)).1 ++
                (entryAt (e :: rest) (k + 1)).2) ++
               (chainHash Hash (zeroHash H) ((e :: rest).take (k + 1 + 1)) ++ C))
            from by rw [hsplit]; simp [List.append_assoc],
          List.set_append_right _ _ (by omega),
          List.set_append_left _ _ (by omega)]
        rw [hDp]
        rw [show (k + 1) * (8 + M + H) + q - (k + 1) * (8 + M + H) = q from by omega]
        simp [List.append_assoc]
      rw [readResolved_pos Hash _ (k + 1) (by omega) D
          (chainHash Hash (zeroHash H) ((e :: rest).take (k + 1)))
          ((encodeTs (entryAt (e :: rest) (k + 1)).1 ++
            (entryAt (e :: rest) (k + 1)).2).set q v)
          (chainHash Hash (zeroHash H) ((e :: rest).take (k + 1 + 1))) C
          (by rw [show (NewReader H M ((buildStore Hash (zeroHash H) (e :: rest)).set
                ((k + 1) * (8 + M + H) + q) v)).store =
              (buildStore Hash (zeroHash H) (e :: rest)).set
                ((k + 1) * (8 + M + H) + q) v from rfl, hset])
          (by simpa [NewReader, Reader.recordSize] using hlen)
          hphl
          (by simp [NewReader, List.length_set, hXl])
          (chainHash_length Hash H HL _ _ (length_zeroHash H))]
      exact if_neg hdiff

/-- A corrupted byte inside record `i` does not affect `readResolved j`
for any later record `j > i`: random access reads only record `j` and the
previous record's trailing hash. -/
theorem readResolved_corrupt_later (Hash : List Nat → List Nat) (H M : Nat)
    (HL : ∀ x, (Hash x).length = H)
    (entries : List (Int × List Nat)) (hm : ∀ e ∈ entries, e.2.length = M)
    (i : Nat) (q : Nat) (hq : q < 8 + M) (v : Nat)
    (j : Nat) (hij : i < j) (hj : j < entries.length) :
    (NewReader H M ((buildStore Hash (zeroHash H) entries).set
        (i * (8 + M + H) + q) v)).readResolved Hash j =
      .ok (specRecord Hash H entries j) := by
  match j, hij, hj with
  | (k + 1), hij, hj =>
    obtain ⟨D, C, hsplit, hlen⟩ := buildStore_decomp Hash H M HL entries
      (zeroHash H) (k + 1) hm (by omega) hj
    have hml : (entryAt entries (k + 1)).2.length = M := by
      rw [entryAt, List.getD_eq_getElem _ _ hj]
      exact hm _ (List.getElem_mem hj)
    have hkk : i + 1 ≤ k + 1 := by omega
    have hmul : (i + 1) * (8 + M + H) ≤ (k + 1) * (8 + M + H) :=
      Nat.mul_le_mul_right _ hkk
    have hmul2 : (i + 1) * (8 + M + H) = i * (8 + M + H) + (8 + M + H) :=
      Nat.succ_mul _ _
    have hplt : i * (8 + M + H) + q < D.length := by omega
    have hset : (buildStore Hash (zeroHash H) entries).set
        (i * (8 + M + H) + q) v =
        D.set (i * (8 + M + H) + q) v ++
          (chainHash Hash (zeroHash H) (entries.take (k + 1)) ++
            (encodeTs (entryAt entries (k + 1)).1 ++ ((entryAt entries (k + 1)).2 ++
             (chainHash Hash (zeroHash H) (entries.take (k + 1 + 1)) ++ C)))) := by
      rw [hsplit, List.set_append_left _ _ hplt]
    rw [readResolved_pos Hash _ (k + 1) (by omega)
        (D.set (i * (8 + M + H) + q) v)
        (chainHash Hash (zeroHash H) (entries.take (k + 1)))
        (encodeTs (entryAt entries (k + 1)).1 ++ (entryAt entries (k + 1)).2)
        (chainHash Hash (zeroHash H) (entries.take (k + 1 + 1))) C
        (by rw [show (NewReader H M ((buildStore Hash (zeroHash H) entries).set
              (i * (8 + M + H) + q) v)).store =
            (buildStore Hash (zeroHash H) entries).set
              (i * (8 + M + H) + q) v from rfl, hset]
            simp [List.append_assoc])
        (by simp only [List.length_set]
            simpa [NewReader, Reader.recordSize] using hlen)
        (chainHash_length Hash H HL _ _ (length_zeroHash H))
        (by simp [NewReader, length_encodeTs, hml])
        (chainHash_length Hash H HL _ _ (length_zeroHash H))]
    rw [if_pos (by
      rw [← List.append_assoc]
      exact (hashAt_eq Hash H entries (k + 1) hj).symm)]
    simp [specRecord, hashAt, NewReader, take8_encodeTs, drop8_encodeTs]

theorem expectedResults_map_fst (Hash : List Nat → List Nat) :
    ∀ (entries : List (Int × List Nat)) (ph : List Nat) (base : Int),
      (expectedResults Hash ph base entries).map Prod.fst =
        (List.range entries.length).map (fun k : Nat => base + 1 + (k : Int)) := by
  intro entries
  induction entries with
  | nil => intro ph base; rfl
  | cons e rest ih =>
    intro ph base
    simp only [expectedResults, List.map_cons, List.length_cons, ih,
      List.range_succ_eq_map, List.map_map]
    refine congrArg₂ List.cons (by push_cast; ring) ?_
    refine List.map_congr_left fun a _ => ?_
    simp only [Function.comp_apply]
    push_cast
    ring

theorem descRecords_ids (Hash : List Nat → List Nat) (H : Nat)
    (entries : List (Int × List Nat)) (j : Nat) :
    (descRecords Hash H entries j).map Record.id =
      ((List.range (j + 1)).reverse).map (fun k : Nat => (k : Int)) := by
  rw [descRecords_eq_map, List.map_map]
  rfl

theorem descRecords_length (Hash : List Nat → List Nat) (H : Nat)
    (entries : List (Int × List Nat)) (j : Nat) :
    (descRecords Hash H entries j).length = j + 1 := by
  rw [descRecords_eq_map]
  simp

/-! ### The claims -/

/-- C10: timestamp serialization round-trips exactly for every signed
64-bit nanosecond value, including negative (pre-1970) values: the writer
stores `uint64(t.UnixNano())` big-endian in 8 bytes and the reader's
`decodeRecord` recovers a time whose `UnixNano` equals the original — the
`int64 → uint64 → int64` two's-complement conversion through big-endian
encoding is the identity on the `int64` range. -/
theorem c10_timestamp_roundtrip (t : Int) (h1 : -(2 ^ 63) ≤ t)
    (h2 : t < 2 ^ 63) : decodeTime (encodeTs t) = t :=
  decodeTime_encodeTs t h1 h2

theorem c10_timestamp_roundtrip_witness :
    (-(2 ^ 63) ≤ (-5 : Int) ∧ (-5 : Int) < 2 ^ 63) ∧
      decodeTime (encodeTs (-5)) = -5 :=
  ⟨⟨by decide, by decide⟩, c10_timestamp_roundtrip (-5) (by decide) (by decide)⟩

/-- C7: `Writer.Write` with a message whose length differs from the
configured message size fails with `ErrInvalidMessageSize`, and the
writer's state — `lastRecordID`, the scratch buffer holding the chain
head, and the store — is exactly as before the call. -/
theorem c7_invalid_size_no_effect (Hash : List Nat → List Nat) (w : Writer)
    (t : Int) (m : List Nat) (hm : m.length ≠ w.messageSize) :
    w.write Hash t m = (w, .error .invalidMessageSize) ∧
    (w.write Hash t m).1.store = w.store ∧
    (w.write Hash t m).1.lastRecordID = w.lastRecordID ∧
    (w.write Hash t m).1.buf = w.buf := by
  rw [write_err Hash w t m hm]
  exact ⟨rfl, rfl, rfl, rfl⟩

theorem c7_invalid_size_no_effect_witness :
    (([1, 2] : List Nat).length ≠ (freshWriter 2 1).messageSize) ∧
    (freshWriter 2 1).write testHash 9 [1, 2] =
      (freshWriter 2 1, .error .invalidMessageSize) :=
  ⟨by decide,
   (c7_invalid_size_no_effect testHash (freshWriter 2 1) 9 [1, 2] (by decide)).1⟩

/-- C8: every successful `Writer.Write` appends exactly
`8 + messageSize + hashSize` bytes at the end of the store, so if the
store length is a multiple of the record size before the call it remains
one after it. -/
theorem c8_append_record_size (Hash : List Nat → List Nat) (w : Writer)
    (t : Int) (m : List Nat) (hm : m.length = w.messageSize)
    (hd : (Hash (w.buf.take w.hashSize ++ encodeTs t ++ m)).length = w.hashSize) :
    (w.write Hash t m).1.store =
      w.store ++ (encodeTs t ++ m ++
        Hash (w.buf.take w.hashSize ++ encodeTs t ++ m)) ∧
    (w.write Hash t m).1.store.length =
      w.store.length + (8 + w.messageSize + w.hashSize) ∧
    ((8 + w.messageSize + w.hashSize) ∣ w.store.length →
      (8 + w.messageSize + w.hashSize) ∣ (w.write Hash t m).1.store.length) := by
  have hlen : (w.write Hash t m).1.store.length =
      w.store.length + (8 + w.messageSize + w.hashSize) := by
    rw [write_ok Hash w t m hm]
    simp only [List.length_append, length_encodeTs, hm, hd]
  refine ⟨by rw [write_ok Hash w t m hm], hlen, fun hdvd => ?_⟩
  rw [hlen]
  exact Nat.dvd_add hdvd dvd_rfl

theorem c8_append_record_size_witness :
    (([9] : List Nat).length = (freshWriter 2 1).messageSize ∧
      (testHash ((freshWriter 2 1).buf.take (freshWriter 2 1).hashSize ++
        encodeTs 5 ++ [9])).length = (freshWriter 2 1).hashSize) ∧
    ((freshWriter 2 1).write testHash 5 [9]).1.store.length =
      (freshWriter 2 1).store.length + (8 + 1 + 2) :=
  ⟨⟨by decide, by decide⟩,
   (c8_append_record_size testHash (freshWriter 2 1) 5 [9] (by decide)
     (by decide)).2.1⟩

/-- C6: on an empty store, `Reader.Read` returns `ErrNotFound` for every
id, negative or not; `Reader.Iterate` with a negative start id succeeds
without invoking the callback (empty visit trace); `Reader.Iterate` with a
non-negative start id returns `ErrNotFound`. -/
theorem c6_empty_store (Hash : List Nat → List Nat) (H M : Nat)
    (hH : 0 < H) :
    (∀ id : Int, (NewReader H M []).read Hash id = .error .notFound) ∧
    (∀ (ε : Type) (f : Record → Bool × Option ε) (startID : Int),
      startID < 0 → (NewReader H M []).iterate Hash hH startID f = ([], none)) ∧
    (∀ (ε : Type) (f : Record → Bool × Option ε) (startID : Int),
      0 ≤ startID → (NewReader H M []).iterate Hash hH startID f =
        ([], some (.err .notFound))) :=
  ⟨fun id => read_empty Hash H M hH id,
   fun ε f startID hs => iterate_empty_neg Hash H M hH f startID hs,
   fun ε f startID hs => iterate_empty_nonneg Hash H M hH f startID hs⟩

theorem c6_empty_store_witness :
    (0 < 2) ∧
    (NewReader 2 1 []).read testHash (-1) = .error .notFound ∧
    (NewReader 2 1 []).read testHash 0 = .error .notFound ∧
    (NewReader 2 1 []).iterate testHash (by decide) (-1)
      (fun _ => (true, (none : Option Unit))) = ([], none) ∧
    (NewReader 2 1 []).iterate testHash (by decide) 0
      (fun _ => (true, (none : Option Unit))) = ([], some (.err .notFound)) := by
  obtain ⟨h1, h2, h3⟩ := c6_empty_store testHash 2 1 (by decide)
  exact ⟨by decide, h1 (-1), h1 0,
    h2 Unit (fun _ => (true, none)) (-1) (by decide),
    h3 Unit (fun _ => (true, none)) 0 (by decide)⟩

/-- C5: successful writes return consecutive ids with no gaps or
reordering: each successful `Writer.Write` returns exactly the previous
last id plus one and advances the writer's last id to it, and a run of
writes from a fresh writer over an empty store returns exactly the ids
`0, 1, …, N-1` in order. -/
theorem c5_sequential_ids (Hash : List Nat → List Nat) (H M : Nat)
    (HL : ∀ x, (Hash x).length = H)
    (entries : List (Int × List Nat)) (hm : ∀ e ∈ entries, e.2.length = M) :
    (∀ (w : Writer) (t : Int) (m : List Nat), m.length = w.messageSize →
      (w.write Hash t m).2 = .ok (w.lastRecordID + 1,
        Hash (w.buf.take w.hashSize ++ encodeTs t ++ m)) ∧
      (w.write Hash t m).1.lastRecordID = w.lastRecordID + 1) ∧
    (writeAll Hash (freshWriter H M) entries).2 =
      .ok (expectedResults Hash (zeroHash H) (-1) entries) ∧
    (expectedResults Hash (zeroHash H) (-1) entries).map Prod.fst =
      (List.range entries.length).map (fun k : Nat => (k : Int)) := by
  refine ⟨fun w t m hm2 => ?_, ?_, ?_⟩
  · rw [write_ok Hash w t m hm2]
    exact ⟨rfl, rfl⟩
  · have h := (writeAll_spec Hash H M HL entries (freshWriter H M) rfl rfl hm).1
    rwa [freshWriter_head,
      show (freshWriter H M).lastRecordID = -1 from rfl] at h
  · rw [expectedResults_map_fst]
    refine List.map_congr_left fun a _ => ?_
    omega

theorem c5_sequential_ids_witness :
    ((∀ e ∈ [((5 : Int), [10]), ((7 : Int), [20])], e.2.length = 1) ∧
      ∀ x, (testHash x).length = 2) ∧
    (writeAll testHash (freshWriter 2 1) [(5, [10]), (7, [20])]).2 =
      .ok (expectedResults testHash (zeroHash 2) (-1) [(5, [10]), (7, [20])]) ∧
    (expectedResults testHash (zeroHash 2) (-1) [(5, [10]), (7, [20])]).map
      Prod.fst = [0, 1] := by
  obtain ⟨-, h2, h3⟩ := c5_sequential_ids testHash 2 1 (fun _ => rfl)
    [(5, [10]), (7, [20])] (by decide)
  exact ⟨⟨by decide, fun _ => rfl⟩, h2, by rw [h3]; decide⟩

/-- C9: the hash returned by a successful `Writer.Write` is an
independent copy: after a second successful write on the same writer, the
first returned hash still equals the first record's stored hash in the
final store, even though the scratch buffer region that produced it (the
bytes from `buf[hashSize+8+messageSize:]`) has been overwritten with the
second record's digest. -/
theorem c9_returned_hash_is_copy (Hash : List Nat → List Nat) (w : Writer)
    (t1 t2 : Int) (m1 m2 : List Nat)
    (h1 : m1.length = w.messageSize) (h2 : m2.length = w.messageSize)
    (hd1 : (Hash (w.buf.take w.hashSize ++ encodeTs t1 ++ m1)).length =
      w.hashSize)
    (hd2 : (Hash (Hash (w.buf.take w.hashSize ++ encodeTs t1 ++ m1) ++
      encodeTs t2 ++ m2)).length = w.hashSize) :
    (w.write Hash t1 m1).2 = .ok (w.lastRecordID + 1,
      Hash (w.buf.take w.hashSize ++ encodeTs t1 ++ m1)) ∧
    ((w.write Hash t1 m1).1.write Hash t2 m2).2 = .ok (w.lastRecordID + 1 + 1,
      Hash (Hash (w.buf.take w.hashSize ++ encodeTs t1 ++ m1) ++
        encodeTs t2 ++ m2)) ∧
    ((((w.write Hash t1 m1).1.write Hash t2 m2).1.store.drop
        (w.store.length + 8 + w.messageSize)).take w.hashSize) =
      Hash (w.buf.take w.hashSize ++ encodeTs t1 ++ m1) ∧
    (((w.write Hash t1 m1).1.write Hash t2 m2).1.buf.drop
        (w.hashSize + 8 + w.messageSize)) =
      Hash (Hash (w.buf.take w.hashSize ++ encodeTs t1 ++ m1) ++
        encodeTs t2 ++ m2) ∧
    (Hash (w.buf.take w.hashSize ++ encodeTs t1 ++ m1) ≠
        Hash (Hash (w.buf.take w.hashSize ++ encodeTs t1 ++ m1) ++
          encodeTs t2 ++ m2) →
      (((w.write Hash t1 m1).1.write Hash t2 m2).1.buf.drop
        (w.hashSize + 8 + w.messageSize)) ≠
        Hash (w.buf.take w.hashSize ++ encodeTs t1 ++ m1)) := by
  have hw1 : (w.write Hash t1 m1).1 = { w with
      store := w.store ++
        (encodeTs t1 ++ m1 ++ Hash (w.buf.take w.hashSize ++ encodeTs t1 ++ m1)),
      buf := Hash (w.buf.take w.hashSize ++ encodeTs t1 ++ m1) ++
        (encodeTs t1 ++ m1 ++ Hash (w.buf.take w.hashSize ++ encodeTs t1 ++ m1)),
      lastRecordID := w.lastRecordID + 1 } := by
    rw [write_ok Hash w t1 m1 h1]
  have hhead : ((w.write Hash t1 m1).1.buf.take (w.write Hash t1 m1).1.hashSize)
      = Hash (w.buf.take w.hashSize ++ encodeTs t1 ++ m1) := by
    rw [hw1]
    exact List.take_left' hd1
  have hw2 := write_ok Hash (w.write Hash t1 m1).1 t2 m2
    (by rw [hw1]; exact h2)
  rw [hhead] at hw2
  have hstore : (((w.write Hash t1 m1).1.write Hash t2 m2).1.store.drop
      (w.store.length + 8 + w.messageSize)).take w.hashSize =
      Hash (w.buf.take w.hashSize ++ encodeTs t1 ++ m1) := by
    rw [hw2]
    dsimp only
    rw [hw1]
    dsimp only
    rw [List.drop_append_of_le_length (by
      simp only [List.length_append, length_encodeTs, h1]
      omega)]
    rw [show w.store ++ (encodeTs t1 ++ m1 ++
        Hash (w.buf.take w.hashSize ++ encodeTs t1 ++ m1)) =
      (w.store ++ encodeTs t1 ++ m1) ++
        Hash (w.buf.take w.hashSize ++ encodeTs t1 ++ m1) from by
        simp [List.append_assoc]]
    rw [List.drop_left' (by
      simp only [List.length_append, length_encodeTs, h1])]
    rw [List.take_append_of_le_length hd1.ge,
      List.take_of_length_le hd1.le]
  have hbuf : (((w.write Hash t1 m1).1.write Hash t2 m2).1.buf.drop
      (w.hashSize + 8 + w.messageSize)) =
      Hash (Hash (w.buf.take w.hashSize ++ encodeTs t1 ++ m1) ++
        encodeTs t2 ++ m2) := by
    rw [hw2]
    dsimp only
    rw [show Hash (Hash (w.buf.take w.hashSize ++ encodeTs t1 ++ m1) ++
        encodeTs t2 ++ m2) ++ (encodeTs t2 ++ m2 ++
        Hash (Hash (w.buf.take w.hashSize ++ encodeTs t1 ++ m1) ++
          encodeTs t2 ++ m2)) =
      (Hash (Hash (w.buf.take w.hashSize ++ encodeTs t1 ++ m1) ++
        encodeTs t2 ++ m2) ++ encodeTs t2 ++ m2) ++
        Hash (Hash (w.buf.take w.hashSize ++ encodeTs t1 ++ m1) ++
          encodeTs t2 ++ m2) from by simp [List.append_assoc]]
    rw [List.drop_left' (by
      simp only [List.length_append, length_encodeTs, h2, hd2])]
  refine ⟨by rw [write_ok Hash w t1 m1 h1], by rw [hw2, hw1], hstore, hbuf,
    fun hne hceq => hne ((hbuf.symm.trans hceq).symm ▸ rfl)⟩

theorem c9_returned_hash_is_copy_witness :
    ((([10] : List Nat).length = (freshWriter 2 1).messageSize ∧
      ([20] : List Nat).length = (freshWriter 2 1).messageSize) ∧
     (testHash ((freshWriter 2 1).buf.take (freshWriter 2 1).hashSize ++
       encodeTs 5 ++ [10])).length = (freshWriter 2 1).hashSize ∧
     (testHash (testHash ((freshWriter 2 1).buf.take (freshWriter 2 1).hashSize ++
       encodeTs 5 ++ [10]) ++ encodeTs 7 ++ [20])).length =
         (freshWriter 2 1).hashSize) ∧
    ((freshWriter 2 1).write testHash 5 [10]).2 =
      .ok ((freshWriter 2 1).lastRecordID + 1,
        testHash ((freshWriter 2 1).buf.take (freshWriter 2 1).hashSize ++
          encodeTs 5 ++ [10])) :=
  ⟨⟨⟨by decide, by decide⟩, by decide, by decide⟩,
   (c9_returned_hash_is_copy testHash (freshWriter 2 1) 5 7 [10] [20]
     (by decide) (by decide) (by decide) (by decide)).1⟩

/-- C2: for every sequence of N in-size writes starting from an empty
store, the writes all succeed, the store is exactly the chained encoding
of the entries, and `Read i` for each `0 ≤ i < N` returns exactly the
i-th written timestamp (at nanosecond precision) and message, with the
stored hash satisfying `hash(i) = Hash(hash(i-1) ∥ ts(i) ∥ msg(i))` and
`hash(-1)` equal to `hashSize` zero bytes. -/
theorem c2_write_then_read (Hash : List Nat → List Nat) (H M : Nat)
    (HL : ∀ x, (Hash x).length = H) (hH : 0 < H)
    (entries : List (Int × List Nat))
    (hm : ∀ e ∈ entries, e.2.length = M)
    (ht : ∀ e ∈ entries, -(2 ^ 63) ≤ e.1 ∧ e.1 < 2 ^ 63) :
    (writeAll Hash (freshWriter H M) entries).2 =
      .ok (expectedResults Hash (zeroHash H) (-1) entries) ∧
    (writeAll Hash (freshWriter H M) entries).1.store =
      buildStore Hash (zeroHash H) entries ∧
    prevHashAt Hash H entries 0 = zeroHash H ∧
    ∀ i (hi : i < entries.length),
      (NewReader H M (writeAll Hash (freshWriter H M) entries).1.store).read
          Hash (i : Int) =
        .ok { id := (i : Int), time := (entries.get ⟨i, hi⟩).1,
              message := (entries.get ⟨i, hi⟩).2,
              hash := hashAt Hash H entries i } ∧
      hashAt Hash H entries i =
        Hash (prevHashAt Hash H entries i ++ encodeTs (entries.get ⟨i, hi⟩).1 ++
          (entries.get ⟨i, hi⟩).2) := by
  obtain ⟨hres, hstore, -, -, -, -⟩ :=
    writeAll_spec Hash H M HL entries (freshWriter H M) rfl rfl hm
  rw [freshWriter_head, show (freshWriter H M).lastRecordID = -1 from rfl]
    at hres
  rw [freshWriter_head, show (freshWriter H M).store = [] from rfl,
    List.nil_append] at hstore
  refine ⟨hres, hstore, rfl, fun i hi => ⟨?_, ?_⟩⟩
  · rw [hstore]
    rw [read_spec Hash H M HL entries hm i hi]
    have hent : entryAt entries i = entries.get ⟨i, hi⟩ := by
      rw [entryAt, List.getD_eq_getElem _ _ hi, List.get_eq_getElem]
    have hmem : entries.get ⟨i, hi⟩ ∈ entries := List.get_mem entries i hi
    rw [specRecord, hent, decodeTime_encodeTs _ (ht _ hmem).1 (ht _ hmem).2]
  · have hent : entryAt entries i = entries.get ⟨i, hi⟩ := by
      rw [entryAt, List.getD_eq_getElem _ _ hi, List.get_eq_getElem]
    rw [← hent]
    exact hashAt_eq Hash H entries i hi

theorem c2_write_then_read_witness :
    ((∀ x, (testHash x).length = 2) ∧ 0 < 2 ∧
      (∀ e ∈ [((5 : Int), [10]), ((7 : Int), [20])], e.2.length = 1) ∧
      (∀ e ∈ [((5 : Int), [10]), ((7 : Int), [20])],
        -(2 ^ 63) ≤ e.1 ∧ e.1 < 2 ^ 63)) ∧
    ((writeAll testHash (freshWriter 2 1) [(5, [10]), (7, [20])]).2 =
      .ok (expectedResults testHash (zeroHash 2) (-1) [(5, [10]), (7, [20])]) ∧
     (writeAll testHash (freshWriter 2 1) [(5, [10]), (7, [20])]).1.store =
      buildStore testHash (zeroHash 2) [(5, [10]), (7, [20])] ∧
     prevHashAt testHash 2 [(5, [10]), (7, [20])] 0 = zeroHash 2 ∧
     ∀ i (hi : i < ([((5 : Int), [10]), ((7 : Int), [20])] :
         List (Int × List Nat)).length),
       (NewReader 2 1 (writeAll testHash (freshWriter 2 1)
           [(5, [10]), (7, [20])]).1.store).read testHash (i : Int) =
         .ok { id := (i : Int),
               time := (([((5 : Int), [10]), ((7 : Int), [20])] :
                 List (Int × List Nat)).get ⟨i, hi⟩).1,
               message := (([((5 : Int), [10]), ((7 : Int), [20])] :
                 List (Int × List Nat)).get ⟨i, hi⟩).2,
               hash := hashAt testHash 2 [(5, [10]), (7, [20])] i } ∧
       hashAt testHash 2 [(5, [10]), (7, [20])] i =
         testHash (prevHashAt testHash 2 [(5, [10]), (7, [20])] i ++
           encodeTs (([((5 : Int), [10]), ((7 : Int), [20])] :
             List (Int × List Nat)).get ⟨i, hi⟩).1 ++
           (([((5 : Int), [10]), ((7 : Int), [20])] :
             List (Int × List Nat)).get ⟨i, hi⟩).2)) :=
  ⟨⟨fun _ => rfl, by decide, by decide, by decide⟩,
   c2_write_then_read testHash 2 1 (fun _ => rfl) (by decide)
     [(5, [10]), (7, [20])] (by decide) (by decide)⟩

/-- C3: a Writer constructed over a store holding `K ≥ 1` complete
records has `lastRecordID = K - 1` and a chain head equal to the trailing
`hashSize` bytes of the store (record `K-1`'s stored hash); its next write
is assigned id `K` and chains from that head.  Over an empty store the
chain head is `hashSize` zero bytes and `lastRecordID = -1`, so the first
write is assigned id 0.  The reconstructed Writer agrees with the Writer
that actually performed the `K` writes in store contents, last id, chain
head, and in the result of the next write. -/
theorem c3_reopen (Hash : List Nat → List Nat) (H M : Nat)
    (HL : ∀ x, (Hash x).length = H) (hH : 0 < H)
    (entries : List (Int × List Nat)) (hne : entries ≠ [])
    (hm : ∀ e ∈ entries, e.2.length = M)
    (t : Int) (m : List Nat) (hml : m.length = M) :
    (∃ wre : Writer,
      NewWriter H M (buildStore Hash (zeroHash H) entries) = .ok wre) ∧
    (∀ wre : Writer,
      NewWriter H M (buildStore Hash (zeroHash H) entries) = .ok wre →
      wre.lastRecordID = (entries.length : Int) - 1 ∧
      wre.buf.take H = (buildStore Hash (zeroHash H) entries).drop
        ((buildStore Hash (zeroHash H) entries).length - H) ∧
      wre.buf.take H = chainHash Hash (zeroHash H) entries ∧
      (wre.write Hash t m).2 = .ok ((entries.length : Int),
        Hash (chainHash Hash (zeroHash H) entries ++ encodeTs t ++ m)) ∧
      wre.store = (writeAll Hash (freshWriter H M) entries).1.store ∧
      wre.lastRecordID =
        (writeAll Hash (freshWriter H M) entries).1.lastRecordID ∧
      wre.buf.take H =
        (writeAll Hash (freshWriter H M) entries).1.buf.take H ∧
      (wre.write Hash t m).2 =
        ((writeAll Hash (freshWriter H M) entries).1.write Hash t m).2 ∧
      (wre.write Hash t m).1.store =
        ((writeAll Hash (freshWriter H M) entries).1.write Hash t m).1.store) ∧
    NewWriter H M [] = .ok (freshWriter H M) ∧
    (freshWriter H M).lastRecordID = -1 ∧
    (freshWriter H M).buf.take H = zeroHash H ∧
    ((freshWriter H M).write Hash t m).2 =
      .ok (0, Hash (zeroHash H ++ encodeTs t ++ m)) := by
  have hKpos : 1 ≤ entries.length := by
    cases entries with
    | nil => exact absurd rfl hne
    | cons x xs => simp
  have hnw := NewWriter_chain Hash H M HL entries hne hm
  have hchl : (chainHash Hash (zeroHash H) entries).length = H :=
    chainHash_length Hash H HL entries _ (length_zeroHash H)
  obtain ⟨A, hsplit, hlen⟩ :=
    buildStore_split_last Hash H M HL entries (zeroHash H) hne hm
  have hlenS : (buildStore Hash (zeroHash H) entries).length =
      entries.length * (8 + M + H) :=
    length_buildStore Hash H M HL entries _ hm
  obtain ⟨hres, hstore, hlast, hhead, hhs, hms⟩ :=
    writeAll_spec Hash H M HL entries (freshWriter H M) rfl rfl hm
  rw [freshWriter_head] at hres hstore hhead
  rw [show (freshWriter H M).store = [] from rfl, List.nil_append] at hstore
  rw [show (freshWriter H M).lastRecordID = -1 from rfl] at hlast
  have hmlc : m.length = (writeAll Hash (freshWriter H M) entries).1.messageSize := by
    rw [hms, hml]
  refine ⟨⟨_, hnw⟩, fun wre hw => ?_, NewWriter_empty H M, rfl,
    freshWriter_head H M, ?_⟩
  · rw [hnw] at hw
    have hwre := (Except.ok.injEq _ _).mp hw.symm
    subst hwre
    have hheadRe : ((⟨buildStore Hash (zeroHash H) entries, H, M,
        (entries.length : Int) - 1,
        chainHash Hash (zeroHash H) entries ++
          List.replicate (8 + M + H) 0⟩ : Writer)).buf.take H =
        chainHash Hash (zeroHash H) entries := List.take_left' hchl
    refine ⟨rfl, ?_, hheadRe, ?_, hstore.symm, ?_, ?_, ?_, ?_⟩
    · rw [hheadRe, hsplit]
      rw [List.drop_left' (by rw [List.length_append, hchl]; omega)]
    · rw [write_ok Hash _ t m (by rw [hml] : m.length =
        ((⟨buildStore Hash (zeroHash H) entries, H, M,
          (entries.length : Int) - 1,
          chainHash Hash (zeroHash H) entries ++
            List.replicate (8 + M + H) 0⟩ : Writer)).messageSize)]
      dsimp only
      rw [hheadRe]
      refine congrArg Except.ok (congrArg₂ Prod.mk (by omega) rfl)
    · rw [hlast]
      dsimp only
      omega
    · rw [hheadRe, hhead]
    · rw [write_ok Hash _ t m (by rw [hml]),
        write_ok Hash _ t m hmlc]
      dsimp only
      rw [hheadRe, hhs, hhead, hlast]
      refine congrArg Except.ok (congrArg₂ Prod.mk (by omega) rfl)
    · rw [write_ok Hash _ t m (by rw [hml]),
        write_ok Hash _ t m hmlc]
      dsimp only
      rw [hheadRe, hhs, hhead, hstore]
  · rw [write_ok Hash _ t m
      (show m.length = (freshWriter H M).messageSize from hml)]
    dsimp only
    rw [show (freshWriter H M).hashSize = H from rfl, freshWriter_head,
      show (freshWriter H M).lastRecordID = -1 from rfl]
    refine congrArg Except.ok (congrArg₂ Prod.mk (by omega) rfl)

theorem c3_reopen_witness :
    ((∀ x, (testHash x).length = 2) ∧ 0 < 2 ∧
      ([((5 : Int), [10]), ((7 : Int), [20])] : List (Int × List Nat)) ≠ [] ∧
      (∀ e ∈ [((5 : Int), [10]), ((7 : Int), [20])], e.2.length = 1) ∧
      ([30] : List Nat).length = 1) ∧
    NewWriter 2 1 [] = .ok (freshWriter 2 1) :=
  ⟨⟨fun _ => rfl, by decide, by decide, by decide, by decide⟩,
   (c3_reopen testHash 2 1 (fun _ => rfl) (by decide)
     [(5, [10]), (7, [20])] (by decide) (by decide) 9 [30] (by decide)).2.2.1⟩

/-- C4: over a store holding `K ≥ 1` valid records, `Iterate` with a
negative start id and an always-continue callback invokes the callback
exactly `K` times with ids `K-1, K-2, …, 0` in exactly that order and
returns nil; `Iterate(j)` for `0 ≤ j < K` visits `j, j-1, …, 0`; a
callback returning continue = false stops iteration without error after
one record; a callback error aborts iteration and is propagated wrapped
with the offending record's id. -/
theorem c4_iterate_order (Hash : List Nat → List Nat) (H M : Nat)
    (HL : ∀ x, (Hash x).length = H) (hH : 0 < H)
    (entries : List (Int × List Nat)) (hne : entries ≠ [])
    (hm : ∀ e ∈ entries, e.2.length = M) :
    (∀ (ε : Type) (f : Record → Bool × Option ε),
      (∀ rec, f rec = (true, none)) →
      ∀ startID : Int, startID < 0 →
      (NewReader H M (buildStore Hash (zeroHash H) entries)).iterate Hash hH
          startID f =
        (descRecords Hash H entries (entries.length - 1), none) ∧
      ((NewReader H M (buildStore Hash (zeroHash H) entries)).iterate Hash hH
          startID f).1.length = entries.length ∧
      ((NewReader H M (buildStore Hash (zeroHash H) entries)).iterate Hash hH
          startID f).1.map Record.id =
        ((List.range entries.length).reverse).map (fun k : Nat => (k : Int))) ∧
    (∀ (ε : Type) (f : Record → Bool × Option ε),
      (∀ rec, f rec = (true, none)) →
      ∀ j : Nat, j < entries.length →
      (NewReader H M (buildStore Hash (zeroHash H) entries)).iterate Hash hH
          (j : Int) f = (descRecords Hash H entries j, none)) ∧
    ((NewReader H M (buildStore Hash (zeroHash H) entries)).iterate Hash hH
        (-1) (fun _ => (false, (none : Option Unit))) =
      ([specRecord Hash H entries (entries.length - 1)], none)) ∧
    (∀ (ε : Type) (e : ε),
      (NewReader H M (buildStore Hash (zeroHash H) entries)).iterate Hash hH
          (-1) (fun _ => (true, some e)) =
        ([specRecord Hash H entries (entries.length - 1)],
         some (.visit ((entries.length - 1 : Nat) : Int) e))) := by
  have hKpos : 1 ≤ entries.length := by
    cases entries with
    | nil => exact absurd rfl hne
    | cons x xs => simp
  have hK1 : entries.length - 1 < entries.length := by omega
  refine ⟨fun ε f hf startID hs => ?_, fun ε f hf j hj => ?_, ?_, fun ε e => ?_⟩
  · have h := iterate_neg Hash H M HL hH entries hm hne f startID hs
    rw [iterLoop_true Hash H M HL hH entries hm f hf (entries.length - 1) hK1]
      at h
    refine ⟨h, ?_, ?_⟩
    · rw [h]
      dsimp only
      rw [descRecords_length]
      omega
    · rw [h]
      dsimp only
      rw [descRecords_ids,
        show entries.length - 1 + 1 = entries.length from by omega]
  · rw [iterate_start Hash H M HL hH entries hm f j hj,
      iterLoop_true Hash H M HL hH entries hm f hf j hj]
  · rw [iterate_neg Hash H M HL hH entries hm hne _ (-1) (by omega),
      iterLoop_step_any Hash H M HL hH entries hm _ (entries.length - 1) hK1]
    simp
  · rw [iterate_neg Hash H M HL hH entries hm hne _ (-1) (by omega),
      iterLoop_step_any Hash H M HL hH entries hm _ (entries.length - 1) hK1]

theorem c4_iterate_order_witness :
    ((∀ x, (testHash x).length = 2) ∧ 0 < 2 ∧
      ([((5 : Int), [10]), ((7 : Int), [20])] : List (Int × List Nat)) ≠ [] ∧
      (∀ e ∈ [((5 : Int), [10]), ((7 : Int), [20])], e.2.length = 1)) ∧
    (NewReader 2 1 (buildStore testHash (zeroHash 2) [(5, [10]), (7, [20])])).iterate
        testHash (by decide) (-1) (fun _ => (false, (none : Option Unit))) =
      ([specRecord testHash 2 [(5, [10]), (7, [20])] 1], none) :=
  ⟨⟨fun _ => rfl, by decide, by decide, by decide⟩,
   (c4_iterate_order testHash 2 1 (fun _ => rfl) (by decide)
     [(5, [10]), (7, [20])] (by decide) (by decide)).2.2.1⟩

/-- C1 (amended): flipping a single byte of record `i`'s stored timestamp
or message makes `Read(i)` return an Integrity error (when the injected
hash maps the altered input to a different digest), but `Read(j)` for a
later record `j > i` is unaffected: random access validates only record
`j` against record `j-1`'s stored trailing hash bytes, which the
corruption does not touch, so it succeeds with the originally written
data. -/
theorem c1_corruption_read (Hash : List Nat → List Nat) (H M : Nat)
    (HL : ∀ x, (Hash x).length = H) (hH : 0 < H)
    (entries : List (Int × List Nat)) (hm : ∀ e ∈ entries, e.2.length = M)
    (i : Nat) (hi : i < entries.length) (q : Nat) (hq : q < 8 + M) (v : Nat)
    (hdiff : Hash (prevHashAt Hash H entries i ++
        (encodeTs (entryAt entries i).1 ++ (entryAt entries i).2).set q v) ≠
      hashAt Hash H entries i) :
    (NewReader H M ((buildStore Hash (zeroHash H) entries).set
        (i * (8 + M + H) + q) v)).read Hash (i : Int) = .error .integrity ∧
    ∀ j : Nat, i < j → j < entries.length →
      (NewReader H M ((buildStore Hash (zeroHash H) entries).set
          (i * (8 + M + H) + q) v)).read Hash (j : Int) =
        .ok (specRecord Hash H entries j) := by
  constructor
  · rw [Reader.read, if_neg (by omega : ¬ ((i : Nat) : Int) < 0),
      show ((i : Nat) : Int).toNat = i from Int.toNat_natCast i]
    exact readResolved_corrupt Hash H M HL entries hm i hi q hq v hdiff
  · intro j hij hj
    rw [Reader.read, if_neg (by omega : ¬ ((j : Nat) : Int) < 0),
      show ((j : Nat) : Int).toNat = j from Int.toNat_natCast j]
    exact readResolved_corrupt_later Hash H M HL entries hm i q hq v j hij hj

/-- C1 counterexample: in a two-record chain over the toy injected hash,
flipping the single message byte of record 0 (store position 8) makes
`Read(0)` fail the integrity check, yet `Read(1)` — a later record
chained through record 0 — still succeeds and returns the decoded record,
contradicting the claim that it must also return an Integrity error. -/
theorem c1_counterexample :
    (NewReader 2 1 ((buildStore testHash (zeroHash 2)
        [(5, [10]), (7, [20])]).set 8 3)).read testHash 0 =
      .error .integrity ∧
    (NewReader 2 1 ((buildStore testHash (zeroHash 2)
        [(5, [10]), (7, [20])]).set 8 3)).read testHash 1 =
      .ok { id := 1, time := 7, message := [20],
            hash := hashAt testHash 2 [(5, [10]), (7, [20])] 1 } :=
  ⟨rfl, rfl⟩

theorem c1_corruption_read_witness :
    ((∀ x, (testHash x).length = 2) ∧ 0 < 2 ∧
      (∀ e ∈ [((5 : Int), [10]), ((7 : Int), [20])], e.2.length = 1) ∧
      (8 : Nat) < 8 + 1 ∧
      testHash (prevHashAt testHash 2 [(5, [10]), (7, [20])] 0 ++
        (encodeTs (entryAt [((5 : Int), [10]), ((7 : Int), [20])] 0).1 ++
          (entryAt [((5 : Int), [10]), ((7 : Int), [20])] 0).2).set 8 3) ≠
        hashAt testHash 2 [(5, [10]), (7, [20])] 0) ∧
    (NewReader 2 1 ((buildStore testHash (zeroHash 2)
        [(5, [10]), (7, [20])]).set (0 * (8 + 1 + 2) + 8) 3)).read testHash
      ((0 : Nat) : Int) = .error .integrity :=
  ⟨⟨fun _ => rfl, by decide, by decide, by decide, by decide⟩,
   (c1_corruption_read testHash 2 1 (fun _ => rfl) (by decide)
     [(5, [10]), (7, [20])] (by decide) 0 (by decide) 8 (by decide) 3
     (by decide)).1⟩

end HashChain
